import Mathlib

/-- Converting a valid code point to a character and back is the identity. -/
theorem char_toNat_ofNat {n : Nat} (h : n.isValidChar) : (Char.ofNat n).toNat = n := by
  rw [Char.ofNat, dif_pos h]
  simp [Char.ofNatAux, Char.toNat, UInt32.toNat]

theorem char_isUpper_iff (c : Char) : c.isUpper = true ↔ 65 ≤ c.toNat ∧ c.toNat ≤ 90 := by
  simp [Char.isUpper, UInt32.le_def, Char.toNat, UInt32.toNat, BitVec.le_def]

theorem char_isLower_iff (c : Char) : c.isLower = true ↔ 97 ≤ c.toNat ∧ c.toNat ≤ 122 := by
  simp [Char.isLower, UInt32.le_def, Char.toNat, UInt32.toNat, BitVec.le_def]

theorem char_eq_of_toNat_eq {c d : Char} (h : c.toNat = d.toNat) : c = d := by
  apply Char.eq_of_val_eq
  apply UInt32.ext
  exact h

theorem valid_of_le_90 {n : Nat} (h : n ≤ 122) : n.isValidChar := by
  left; omega

theorem char_toLower_eq (c : Char) :
    Char.toLower c = if 65 ≤ c.toNat ∧ c.toNat ≤ 90 then Char.ofNat (c.toNat + 32) else c := by
  simp [Char.toLower]

theorem char_toUpper_eq (c : Char) :
    Char.toUpper c = if 97 ≤ c.toNat ∧ c.toNat ≤ 122 then Char.ofNat (c.toNat - 32) else c := by
  simp [Char.toUpper]

theorem toNat_toLower (c : Char) :
    (Char.toLower c).toNat = if 65 ≤ c.toNat ∧ c.toNat ≤ 90 then c.toNat + 32 else c.toNat := by
  rw [char_toLower_eq]
  split
  · next h => exact char_toNat_ofNat (by left; omega)
  · rfl

theorem toNat_toUpper (c : Char) :
    (Char.toUpper c).toNat = if 97 ≤ c.toNat ∧ c.toNat ≤ 122 then c.toNat - 32 else c.toNat := by
  rw [char_toUpper_eq]
  split
  · next h => exact char_toNat_ofNat (by left; omega)
  · rfl

theorem toLower_toLower (c : Char) : Char.toLower (Char.toLower c) = Char.toLower c := by
  apply char_eq_of_toNat_eq
  rw [toNat_toLower, toNat_toLower]
  split
  · split <;> omega
  · rfl

theorem toUpper_toUpper (c : Char) : Char.toUpper (Char.toUpper c) = Char.toUpper c := by
  apply char_eq_of_toNat_eq
  rw [toNat_toUpper, toNat_toUpper]
  split
  · split <;> omega
  · rfl

/-- Model of Python's `str.isspace` characters relevant to `str.strip()`
(ASCII whitespace: space, tab, newline, carriage return, vertical tab, form feed). -/
def pyIsSpace (c : Char) : Bool :=
  decide (c.toNat = 32 ∨ c.toNat = 9 ∨ c.toNat = 10 ∨ c.toNat = 13 ∨
    c.toNat = 11 ∨ c.toNat = 12)

theorem pyIsSpace_iff (c : Char) :
    pyIsSpace c = true ↔ c.toNat = 32 ∨ c.toNat = 9 ∨ c.toNat = 10 ∨ c.toNat = 13 ∨
      c.toNat = 11 ∨ c.toNat = 12 := by
  simp [pyIsSpace]

theorem char_isAlpha_iff (c : Char) :
    c.isAlpha = true ↔ (65 ≤ c.toNat ∧ c.toNat ≤ 90) ∨ (97 ≤ c.toNat ∧ c.toNat ≤ 122) := by
  simp [Char.isAlpha, char_isUpper_iff, char_isLower_iff]

theorem isAlpha_toLower (c : Char) : (Char.toLower c).isAlpha = c.isAlpha := by
  by_cases hc : 65 ≤ c.toNat ∧ c.toNat ≤ 90
  · have h1 : c.isAlpha = true := (char_isAlpha_iff c).mpr (Or.inl hc)
    have h2 : (Char.toLower c).toNat = c.toNat + 32 := by rw [toNat_toLower, if_pos hc]
    rw [h1]
    exact (char_isAlpha_iff _).mpr (Or.inr (by omega))
  · rw [char_toLower_eq, if_neg hc]

theorem isAlpha_toUpper (c : Char) : (Char.toUpper c).isAlpha = c.isAlpha := by
  by_cases hc : 97 ≤ c.toNat ∧ c.toNat ≤ 122
  · have h1 : c.isAlpha = true := (char_isAlpha_iff c).mpr (Or.inr hc)
    have h2 : (Char.toUpper c).toNat = c.toNat - 32 := by rw [toNat_toUpper, if_pos hc]
    rw [h1]
    exact (char_isAlpha_iff _).mpr (Or.inl (by omega))
  · rw [char_toUpper_eq, if_neg hc]

theorem pyIsSpace_of_alpha {c : Char} (h : c.isAlpha = true) : pyIsSpace c = false := by
  rcases hs : pyIsSpace c with _ | _
  · rfl
  · have h1 := (pyIsSpace_iff c).mp hs
    have h2 := (char_isAlpha_iff c).mp h
    omega

/-- Model of Python's `str.title()` (ASCII letters): walk the characters tracking
whether the previous character was cased; a cased character is uppercased when the
previous character was not cased and lowercased otherwise. -/
def pyTitleAux : Bool → List Char → List Char
  | _, [] => []
  | prevCased, c :: cs =>
    if c.isAlpha then
      (if prevCased then c.toLower else c.toUpper) :: pyTitleAux true cs
    else
      c :: pyTitleAux false cs

def pyTitle (s : String) : String := ⟨pyTitleAux false s.data⟩

theorem pyTitleAux_idem (l : List Char) : ∀ b, pyTitleAux b (pyTitleAux b l) = pyTitleAux b l := by
  induction l with
  | nil => intro b; rfl
  | cons c cs ih =>
    intro b
    rcases hc : c.isAlpha with _ | _
    · simp only [pyTitleAux, hc, Bool.false_eq_true, if_false, ih false]
    · rcases b with _ | _
      · simp only [pyTitleAux, hc, if_true, Bool.false_eq_true, if_false,
          isAlpha_toUpper, toUpper_toUpper, ih true]
      · simp only [pyTitleAux, hc, if_true, isAlpha_toLower, toLower_toLower, ih true]

theorem pyTitleAux_map_isSpace (l : List Char) :
    ∀ b, (pyTitleAux b l).map pyIsSpace = l.map pyIsSpace := by
  induction l with
  | nil => intro b; rfl
  | cons c cs ih =>
    intro b
    rcases hc : c.isAlpha with _ | _
    · simp only [pyTitleAux, hc, Bool.false_eq_true, if_false, List.map_cons, ih false]
    · have h1 : pyIsSpace (if b = true then c.toLower else c.toUpper) = pyIsSpace c := by
        rcases b with _ | _
        · simp only [Bool.false_eq_true, if_false]
          rw [pyIsSpace_of_alpha (by rw [isAlpha_toUpper]; exact hc), pyIsSpace_of_alpha hc]
        · simp only [if_true]
          rw [pyIsSpace_of_alpha (by rw [isAlpha_toLower]; exact hc), pyIsSpace_of_alpha hc]
      simp only [pyTitleAux, hc, if_true, List.map_cons, h1, ih true]

/-- Model of Python's `str.strip()` with no argument: remove leading and
trailing whitespace characters. -/
def pyStripList (l : List Char) : List Char :=
  ((l.dropWhile pyIsSpace).reverse.dropWhile pyIsSpace).reverse

def pyStrip (s : String) : String := ⟨pyStripList s.data⟩

theorem dropWhile_head_not {p : Char → Bool} (l : List Char) :
    ∀ c ∈ (l.dropWhile p).head?, p c = false := by
  induction l with
  | nil => intro c hc; cases hc
  | cons a as ih =>
    intro c hc
    by_cases ha : p a = true
    · rw [List.dropWhile_cons, if_pos ha] at hc
      exact ih c hc
    · rw [List.dropWhile_cons, if_neg ha] at hc
      cases hc
      simpa using ha

theorem dropWhile_of_head_not {p : Char → Bool} {l : List Char}
    (h : ∀ c ∈ l.head?, p c = false) : l.dropWhile p = l := by
  cases l with
  | nil => rfl
  | cons a as =>
    have := h a rfl
    rw [List.dropWhile_cons, if_neg (by simp [this])]

theorem head_not_of_map_eq {p : Char → Bool} {u v : List Char}
    (h : u.map p = v.map p) (hv : ∀ c ∈ v.head?, p c = false) :
    ∀ c ∈ u.head?, p c = false := by
  cases u with
  | nil => intro c hc; cases hc
  | cons a as =>
    cases v with
    | nil => simp at h
    | cons b bs =>
      intro c hc
      cases hc
      simp only [List.map_cons, List.cons.injEq] at h
      rw [h.1]
      exact hv b rfl

theorem pyStripList_revhead_not (l : List Char) :
    ∀ c ∈ (pyStripList l).reverse.head?, pyIsSpace c = false := by
  unfold pyStripList
  rw [List.reverse_reverse]
  exact dropWhile_head_not _

theorem head_not_of_prefix {p : Char → Bool} {u v : List Char}
    (h : u <+: v) (hv : ∀ c ∈ v.head?, p c = false) :
    ∀ c ∈ u.head?, p c = false := by
  cases u with
  | nil => intro c hc; cases hc
  | cons a as =>
    intro c hc
    cases hc
    obtain ⟨t, ht⟩ := h
    subst ht
    exact hv a rfl

theorem pyStripList_head_not (l : List Char) :
    ∀ c ∈ (pyStripList l).head?, pyIsSpace c = false := by
  have hpre : pyStripList l <+: l.dropWhile pyIsSpace := by
    unfold pyStripList
    have h1 : List.dropWhile pyIsSpace (List.dropWhile pyIsSpace l).reverse <:+
        (List.dropWhile pyIsSpace l).reverse := List.dropWhile_suffix _
    have h2 := List.reverse_prefix.mpr h1
    rwa [List.reverse_reverse] at h2
  exact head_not_of_prefix hpre (dropWhile_head_not l)

theorem pyStripList_eq_self {r : List Char}
    (h1 : ∀ c ∈ r.head?, pyIsSpace c = false)
    (h2 : ∀ c ∈ r.reverse.head?, pyIsSpace c = false) :
    pyStripList r = r := by
  unfold pyStripList
  rw [dropWhile_of_head_not h1, dropWhile_of_head_not h2, List.reverse_reverse]

theorem pyStripList_idem (l : List Char) : pyStripList (pyStripList l) = pyStripList l :=
  pyStripList_eq_self (pyStripList_head_not l) (pyStripList_revhead_not l)

/-- Embedding of `PlantService._normalize_plant_name`:
`plant_name.strip().title()`. -/
def _normalize_plant_name (plant_name : String) : String :=
  pyTitle (pyStrip plant_name)

theorem title_strip_of_stripped {u : List Char}
    (h1 : ∀ c ∈ u.head?, pyIsSpace c = false)
    (h2 : ∀ c ∈ u.reverse.head?, pyIsSpace c = false) :
    pyStripList (pyTitleAux false u) = pyTitleAux false u := by
  apply pyStripList_eq_self
  · exact head_not_of_map_eq (pyTitleAux_map_isSpace u false) h1
  · apply head_not_of_map_eq (p := pyIsSpace) (v := u.reverse)
    · rw [List.map_reverse, List.map_reverse, pyTitleAux_map_isSpace]
    · exact h2

theorem normalize_plant_name_idem (s : String) :
    _normalize_plant_name (_normalize_plant_name s) = _normalize_plant_name s := by
  show pyTitle (pyStrip (pyTitle (pyStrip s))) = pyTitle (pyStrip s)
  have hdata : (pyTitle (pyStrip s)).data = pyTitleAux false (pyStripList s.data) := rfl
  have hstrip : pyStrip (pyTitle (pyStrip s)) = ⟨pyTitleAux false (pyStripList s.data)⟩ := by
    show String.mk (pyStripList (pyTitle (pyStrip s)).data) = _
    rw [hdata, title_strip_of_stripped (pyStripList_head_not s.data) (pyStripList_revhead_not s.data)]
  rw [hstrip]
  show String.mk (pyTitleAux false (pyTitleAux false (pyStripList s.data))) = _
  rw [pyTitleAux_idem]
  rfl

/-- Embedding of `AppConfig.CACHE_KEY_PREFIX`. -/
def CACHE_KEY_PREFIX : String := "plant:"

/-- The cache key computed by `PlantService.get_analysis_stream` and
`PlantService.get_cached_analysis`: prefix plus normalized name, with a
`:web` suffix for the web-search variant. -/
def cacheKeyFor (plant_name : String) (webSearch : Bool) : String :=
  let base := CACHE_KEY_PREFIX ++ _normalize_plant_name plant_name
  if webSearch then base ++ ":web" else base

/-- Embedding of `PlantService.get_cached_analysis`: the Redis store is a
function from keys to optional values; the method normalizes the plant name,
forms the cache key and looks it up. -/
def get_cached_analysis (cache : String → Option String) (plant_name : String)
    (web_search_version : Bool) : Option String :=
  cache (cacheKeyFor plant_name web_search_version)

structure StreamResult where
  yields : List String
  cacheWrite : Option (String × String)
  deriving Repr, DecidableEq

/-- Embedding of `PlantService.get_analysis_stream` (non-exception path).
`clientReady` models `self.client` being set; `chunks` models the sequence of
`chunk.choices[0].delta.content` values from the model stream (`none` for a
null delta). The generator accumulates `full_response` as the concatenation of
the non-null contents and, when it is non-empty, performs one cache write of
that string under the (web-suffixed, when applicable) cache key. -/
def get_analysis_stream (clientReady : Bool) (plant_name : String)
    (use_web_search : Bool) (chunks : List (Option String)) : StreamResult :=
  if !clientReady then
    { yields := ["Error: OpenAI API not configured. Please check your API key."]
      cacheWrite := none }
  else
    let contents := chunks.filterMap id
    let full_response := String.join contents
    let searchNote : List String :=
      if use_web_search then ["🔍 Searching the web for the latest information...\n\n"] else []
    { yields := searchNote ++ contents
      cacheWrite :=
        if full_response ≠ "" then some (cacheKeyFor plant_name use_web_search, full_response)
        else none }

/-- Outcome of one Redis operation, as distinguished by the `except` clauses of
`CacheService.get`/`CacheService.set`. -/
inductive RedisOutcome
  | ok
  | connError
  | timeoutError
  | otherError
  deriving Repr, DecidableEq

structure CacheState where
  connected : Bool
  hasClient : Bool
  store : String → Option String

namespace CacheService

/-- Embedding of `CacheService.get`: returns `None` when disconnected or without a
client; on connection/timeout errors marks the service disconnected and returns
`None`; on any other error returns `None`. -/
def get (st : CacheState) (key : String) (oc : RedisOutcome) : Option String × CacheState :=
  if !st.connected || !st.hasClient then (none, st)
  else
    match oc with
    | .ok => (st.store key, st)
    | .connError => (none, { st with connected := false })
    | .timeoutError => (none, { st with connected := false })
    | .otherError => (none, st)

/-- Embedding of `CacheService.set`: returns `False` when disconnected or without
a client; on connection/timeout errors marks the service disconnected and returns
`False`; on any other error returns `False`; on success stores the value
(`setex`/`set` both store the string value; expiry is outside the model's clock). -/
def set (st : CacheState) (key value : String) (expire : Option Nat)
    (oc : RedisOutcome) : Bool × CacheState :=
  if !st.connected || !st.hasClient then (false, st)
  else
    match oc with
    | .ok => (true, { st with store := fun k => if k = key then some value else st.store k })
    | .connError => (false, { st with connected := false })
    | .timeoutError => (false, { st with connected := false })
    | .otherError => (false, st)

end CacheService

/-- Model of the Python method `str.lower` (ASCII letters). -/
def pyLower (s : String) : String := ⟨s.data.map Char.toLower⟩

/-- Is `needle` a contiguous sublist of `hay`? -/
def listInfixOf (needle hay : List Char) : Bool :=
  match hay with
  | [] => needle.isEmpty
  | _ :: t => needle.isPrefixOf hay || listInfixOf needle t

/-- Python substring containment, `needle in hay`. -/
def containsSub (hay needle : String) : Bool := listInfixOf needle.data hay.data

/-- A JSON value as produced by `json.loads`. Object values are reduced to
their key lists and numbers to a single payload, which is all the code under
study can observe of them (JSON object keys are strings). -/
inductive JsonValue
  | null
  | bool (b : Bool)
  | num (n : Int)
  | str (s : String)
  | arr (items : List JsonValue)
  | obj (keys : List String)

/-- A Python exception that the body of `get_search_suggestions` can raise
beyond the request and JSON-decode failures. -/
inductive PyError
  | typeError
  | keyError
  | indexError
  | attributeError
  deriving Repr, DecidableEq

/-- Outcome of `requests.get` with `raise_for_status` followed by `json.loads`:
the request can fail with `requests.RequestException`, decoding can fail with
`json.JSONDecodeError`, or a JSON value of arbitrary shape is decoded. -/
inductive FetchOutcome
  | requestError
  | jsonDecodeError
  | ok (v : JsonValue)

/-- Python equality `x == query` for a string `query`: true exactly on an
equal string (no other JSON value compares equal to a string). -/
def pyEqStr (query : String) : JsonValue → Bool
  | .str s => s == query
  | _ => false

/-- Is the JSON value a string? -/
def isStrVal : JsonValue → Bool
  | .str _ => true
  | _ => false

/-- Python `v[1]` on a decoded JSON value: a list or string indexes, raising
`IndexError` when shorter than 2; a dict raises `KeyError` for the integer
key 1, and every other value raises `TypeError` (not subscriptable). -/
def pyIndex1 (v : JsonValue) : Except PyError JsonValue :=
  match v with
  | .arr items =>
    match items[1]? with
    | some x => Except.ok x
    | none => Except.error .indexError
  | .str s =>
    match s.data[1]? with
    | some c => Except.ok (.str (String.mk [c]))
    | none => Except.error .indexError
  | .obj _ => Except.error .keyError
  | _ => Except.error .typeError

/-- Python `query in results` on a decoded JSON value: list membership under
Python equality, substring test on a string, key membership on a dict, and
`TypeError` on any non-container. -/
def pyContains (query : String) (v : JsonValue) : Except PyError Bool :=
  match v with
  | .arr items => Except.ok (items.any (pyEqStr query))
  | .str s => Except.ok (containsSub s query)
  | .obj keys => Except.ok (keys.contains query)
  | _ => Except.error .typeError

/-- Python `results.insert(0, query)`: only a list has `insert`; a string or
dict result raises `AttributeError`. -/
def pyInsert0 (query : String) (v : JsonValue) : Except PyError JsonValue :=
  match v with
  | .arr items => Except.ok (.arr (.str query :: items))
  | _ => Except.error .attributeError

/-- Python `results[:10]`: slices a list or a string; a dict raises
`TypeError` (a slice is not a hashable key), as does any other value. -/
def pySlice10 (v : JsonValue) : Except PyError JsonValue :=
  match v with
  | .arr items => Except.ok (.arr (items.take 10))
  | .str s => Except.ok (.str (String.mk (s.data.take 10)))
  | _ => Except.error .typeError

/-- Embedding of `get_search_suggestions`: a request failure, a JSON-decode
failure or an `IndexError` from the index-1 access returns `[query]` (the
caught exceptions); any other decoded value flows through `query in results`,
`results.insert(0, query)` and `results[:10]`, whose `TypeError`, `KeyError`
and `AttributeError` propagate uncaught. -/
def get_search_suggestions (query : String) (outcome : FetchOutcome) :
    Except PyError JsonValue :=
  match outcome with
  | .requestError => Except.ok (.arr [.str query])
  | .jsonDecodeError => Except.ok (.arr [.str query])
  | .ok v =>
    match pyIndex1 v with
    | Except.error .indexError => Except.ok (.arr [.str query])
    | Except.error e => Except.error e
    | Except.ok results =>
      match pyContains query results with
      | Except.error e => Except.error e
      | Except.ok mem =>
        if mem then pySlice10 results
        else
          match pyInsert0 query results with
          | Except.error e => Except.error e
          | Except.ok inserted => pySlice10 inserted

/-- The light keyword table of `extract_quick_facts`, in its literal iteration
order. -/
def LIGHT_TABLE : List (String × String) :=
  [("full sun", "☀️ Full Sun"), ("partial shade", "⛅ Partial"),
   ("full shade", "🌙 Shade"), ("bright indirect", "💡 Bright"),
   ("low light", "🔅 Low Light")]

/-- The water keyword table of `extract_quick_facts`, in its literal iteration
order. -/
def WATER_TABLE : List (String × String) :=
  [("daily", "💧 Daily"), ("weekly", "💦 Weekly"),
   ("moderate", "💧 Moderate"), ("drought", "🌵 Minimal")]

/-- The toxicity negation patterns of `extract_quick_facts`. -/
def NEG_PATTERNS : List String := ["not toxic", "non-toxic", "non toxic", "safe for pets"]

/-- First table entry whose keyword occurs in the lowered text (the `break` in
the source's `for` loops). -/
def firstMatch (table : List (String × String)) (lower : String) : Option String :=
  match table with
  | [] => none
  | (k, v) :: rest => if containsSub lower k then some v else firstMatch rest lower

/-- Embedding of `extract_quick_facts` (the dict is an association list in
insertion order: Safety, then Light, then Water). -/
def extract_quick_facts (analysis : String) : List (String × String) :=
  let lower := pyLower analysis
  let safety : List (String × String) :=
    if containsSub lower "toxic" then
      [("Safety",
        if NEG_PATTERNS.any (fun t => containsSub lower t) then "Pet Safe ✅" else "Toxic ⚠️")]
    else []
  let light : List (String × String) :=
    match firstMatch LIGHT_TABLE lower with
    | some v => [("Light", v)]
    | none => []
  let water : List (String × String) :=
    match firstMatch WATER_TABLE lower with
    | some v => [("Water", v)]
    | none => []
  safety ++ light ++ water

example : extract_quick_facts "This plant is not toxic. It likes bright indirect light and weekly watering." =
    [("Safety", "Pet Safe ✅"), ("Light", "💡 Bright"), ("Water", "💦 Weekly")] := by decide

/-- C2: every completed, non-empty run of `get_analysis_stream` passes to the
cache exactly the plain-string concatenation of the non-null content chunks
received from the model (never a parsed document; the cache write's value type
is `String`). -/
theorem get_analysis_stream_caches_raw_concatenation
    (plant_name : String) (use_web_search : Bool) (chunks : List (Option String))
    (k v : String)
    (h : (get_analysis_stream true plant_name use_web_search chunks).cacheWrite = some (k, v)) :
    v = String.join (chunks.filterMap id) := by
  unfold get_analysis_stream at h
  simp only [Bool.not_true, Bool.false_eq_true, if_false] at h
  by_cases hf : String.join (chunks.filterMap id) ≠ ""
  · rw [if_pos hf] at h
    cases h
    rfl
  · rw [if_neg hf] at h
    cases h

theorem get_analysis_stream_caches_raw_concatenation_witness :
    "hello" = String.join ([some "hello"].filterMap id) :=
  get_analysis_stream_caches_raw_concatenation "Rose" false [some "hello"]
    (cacheKeyFor "Rose" false) "hello" (by decide)

/-- C4: cache lookups are keyed by the normalized name: both
`get_cached_analysis` and `get_analysis_stream` use the key
`CACHE_KEY_PREFIX ++ name.strip().title()` (plus `:web` for the web variant),
so strip-title-equal names address the same entry. -/
theorem cache_key_uses_normalized_name (cache : String → Option String) (n : String)
    (w : Bool) (chunks : List (Option String)) :
    get_cached_analysis cache n w = get_cached_analysis cache (_normalize_plant_name n) w ∧
    cacheKeyFor n w =
      (if w then CACHE_KEY_PREFIX ++ _normalize_plant_name n ++ ":web"
       else CACHE_KEY_PREFIX ++ _normalize_plant_name n) ∧
    ((get_analysis_stream true n w chunks).cacheWrite.map Prod.fst).getD (cacheKeyFor n w)
      = cacheKeyFor n w := by
  refine ⟨?_, ?_, ?_⟩
  · unfold get_cached_analysis cacheKeyFor
    rw [normalize_plant_name_idem]
  · unfold cacheKeyFor
    rcases w with _ | _ <;> rfl
  · unfold get_analysis_stream
    simp only [Bool.not_true, Bool.false_eq_true, if_false]
    split <;> rfl

/-- C9: the cache degrades to inert values instead of raising: with no
connection or no client, `get` returns `None` and `set` returns `False`; on a
connection or timeout error during the operation the same fallbacks are
returned (no exception propagates: the operations are total functions). -/
theorem cache_service_degrades_gracefully (st : CacheState) (key value : String)
    (expire : Option Nat) (oc : RedisOutcome) :
    (st.connected = false ∨ st.hasClient = false →
      (CacheService.get st key oc).1 = none ∧
      (CacheService.set st key value expire oc).1 = false) ∧
    (oc = .connError ∨ oc = .timeoutError →
      (CacheService.get st key oc).1 = none ∧
      (CacheService.set st key value expire oc).1 = false) := by
  constructor
  · intro h
    have hcond : (!st.connected || !st.hasClient) = true := by
      rcases h with h | h <;> simp [h]
    unfold CacheService.get CacheService.set
    rw [if_pos hcond, if_pos hcond]
    exact ⟨rfl, rfl⟩
  · intro h
    unfold CacheService.get CacheService.set
    by_cases hcond : (!st.connected || !st.hasClient) = true
    · rw [if_pos hcond, if_pos hcond]
      exact ⟨rfl, rfl⟩
    · rw [if_neg hcond, if_neg hcond]
      rcases h with h | h <;> subst h <;> exact ⟨rfl, rfl⟩

theorem cache_service_degrades_gracefully_witness :
    (CacheService.get ⟨false, true, fun _ => some "x"⟩ "k" .ok).1 = none ∧
    (CacheService.set ⟨false, true, fun _ => some "x"⟩ "k" "v" none .ok).1 = false :=
  (cache_service_degrades_gracefully ⟨false, true, fun _ => some "x"⟩ "k" "v" none .ok).1
    (Or.inl rfl)

/-- C10 counterexample: the HTTP request succeeds and `json.loads` parses the
valid JSON text "null", yet `json.loads(response.text)[1]` raises a
`TypeError` that no `except` clause catches, so the call propagates an
exception instead of returning a list — refuting the claim that
`get_search_suggestions` returns a list of strings without raising for every
query. -/
theorem get_search_suggestions_raises :
    get_search_suggestions "rose" (.ok .null) = .error .typeError := rfl

/-- C10 (amended): on a request failure, a JSON-decode failure, or an
`IndexError` from the index-1 access, `get_search_suggestions` returns exactly
the one-element list `[query]`; whenever the decoded response carries a list
at index 1, the function returns without raising a list of at most 10 items
whose first element is the query whenever the query was absent from the
fetched list, and whose items are all strings whenever the fetched items all
were; on response shapes outside these cases an uncaught `TypeError`,
`KeyError` or `AttributeError` can propagate. -/
theorem get_search_suggestions_spec (query : String) (outcome : FetchOutcome) :
    ((outcome = .requestError ∨ outcome = .jsonDecodeError) →
      get_search_suggestions query outcome = .ok (.arr [.str query])) ∧
    (∀ v, outcome = .ok v → pyIndex1 v = .error .indexError →
      get_search_suggestions query outcome = .ok (.arr [.str query])) ∧
    (∀ v items, outcome = .ok v → pyIndex1 v = .ok (.arr items) →
      ∃ out, get_search_suggestions query outcome = .ok (.arr out) ∧
        out.length ≤ 10 ∧
        (items.any (pyEqStr query) = false → out.head? = some (.str query)) ∧
        (items.all isStrVal = true → out.all isStrVal = true)) := by
  refine ⟨?_, ?_, ?_⟩
  · rintro (h | h) <;> subst h <;> rfl
  · intro v hv hidx
    subst hv
    show (match pyIndex1 v with
      | Except.error PyError.indexError => Except.ok (.arr [.str query])
      | Except.error e => Except.error e
      | Except.ok results =>
        match pyContains query results with
        | Except.error e => Except.error e
        | Except.ok mem =>
          if mem then pySlice10 results
          else
            match pyInsert0 query results with
            | Except.error e => Except.error e
            | Except.ok inserted => pySlice10 inserted) =
      Except.ok (.arr [.str query])
    rw [hidx]
  · intro v items hv hidx
    subst hv
    have hmain : get_search_suggestions query (.ok v) =
        if items.any (pyEqStr query) then Except.ok (.arr (items.take 10))
        else Except.ok (.arr ((JsonValue.str query :: items).take 10)) := by
      show (match pyIndex1 v with
        | Except.error PyError.indexError => Except.ok (.arr [.str query])
        | Except.error e => Except.error e
        | Except.ok results =>
          match pyContains query results with
          | Except.error e => Except.error e
          | Except.ok mem =>
            if mem then pySlice10 results
            else
              match pyInsert0 query results with
              | Except.error e => Except.error e
              | Except.ok inserted => pySlice10 inserted) =
        if items.any (pyEqStr query) then Except.ok (.arr (items.take 10))
        else Except.ok (.arr ((JsonValue.str query :: items).take 10))
      rw [hidx]
      rfl
    by_cases hmem : items.any (pyEqStr query) = true
    · refine ⟨items.take 10, ?_, List.length_take_le 10 items, ?_, ?_⟩
      · rw [hmain, if_pos hmem]
      · intro hno
        rw [hno] at hmem
        cases hmem
      · intro hall
        rw [List.all_eq_true] at hall ⊢
        intro x hx
        exact hall x (List.take_subset 10 items hx)
    · rw [Bool.not_eq_true] at hmem
      refine ⟨(JsonValue.str query :: items).take 10, ?_, ?_, ?_, ?_⟩
      · rw [hmain, if_neg (by rw [hmem]; exact Bool.false_ne_true)]
      · exact List.length_take_le 10 _
      · intro _
        rfl
      · intro hall
        rw [List.all_eq_true] at hall ⊢
        intro x hx
        have hx2 := List.take_subset 10 (JsonValue.str query :: items) hx
        rcases List.mem_cons.mp hx2 with h | h
        · subst h
          rfl
        · exact hall x h

theorem get_search_suggestions_spec_witness :
    ∃ out,
      get_search_suggestions "rose"
        (.ok (.arr [.str "x", .arr [.str "rose care", .str "rose pruning"]])) =
        .ok (.arr out) ∧
      out.length ≤ 10 ∧
      ([JsonValue.str "rose care", JsonValue.str "rose pruning"].any (pyEqStr "rose") = false →
        out.head? = some (.str "rose")) ∧
      ([JsonValue.str "rose care", JsonValue.str "rose pruning"].all isStrVal = true →
        out.all isStrVal = true) :=
  (get_search_suggestions_spec "rose"
      (.ok (.arr [.str "x", .arr [.str "rose care", .str "rose pruning"]]))).2.2
    (.arr [.str "x", .arr [.str "rose care", .str "rose pruning"]])
    [.str "rose care", .str "rose pruning"] rfl rfl

/-- C8: `extract_quick_facts` produces only the keys Safety, Light, Water;
Safety is present exactly when "toxic" occurs in the lowercased input, with the
pet-safe value exactly when a negation pattern occurs; Light and Water come
from the first matching keyword of their fixed tables, or are absent. -/
theorem extract_quick_facts_spec (analysis : String) :
    (∀ kv ∈ extract_quick_facts analysis,
        kv.1 = "Safety" ∨ kv.1 = "Light" ∨ kv.1 = "Water") ∧
    (extract_quick_facts analysis).lookup "Safety" =
      (if containsSub (pyLower analysis) "toxic" then
        some (if NEG_PATTERNS.any (fun t => containsSub (pyLower analysis) t)
              then "Pet Safe ✅" else "Toxic ⚠️")
       else none) ∧
    (extract_quick_facts analysis).lookup "Light" = firstMatch LIGHT_TABLE (pyLower analysis) ∧
    (extract_quick_facts analysis).lookup "Water" = firstMatch WATER_TABLE (pyLower analysis) := by
  unfold extract_quick_facts
  by_cases ht : containsSub (pyLower analysis) "toxic" <;>
  rcases hl : firstMatch LIGHT_TABLE (pyLower analysis) with _ | lv <;>
  rcases hw : firstMatch WATER_TABLE (pyLower analysis) with _ | wv <;>
  simp [ht, hl, hw, List.lookup]

namespace ReportEngine

/-- Modelled from the spec: the fixed recognized emoji set of Heading Normalizer
rule 3 (§4.1); the repository revision under analysis does not contain the
structuring engine, so the set is fixed here. -/
def HEADING_EMOJIS : List Char := ['🌿', '🌱', '🌵', '💧', '☀', '⚠', '🪴', '🌸']

def isSpaceTab (c : Char) : Bool := c == ' ' || c == '\t'

/-- Modelled from the spec: rule 1 heading token `##`..`######` followed by a
space. Returns the token and the remaining text. -/
def hashMatch (l : List Char) : Option (List Char × List Char) :=
  let run := l.takeWhile (· == '#')
  let rest := l.dropWhile (· == '#')
  if 2 ≤ run.length ∧ run.length ≤ 6 then
    match rest with
    | c :: rest' => if c = ' ' then some (run ++ [' '], rest') else none
    | [] => none
  else none

/-- Modelled from the spec: rule 2 numbered-list heading pattern
`\d+\s*[.)]\s+` (the trailing whitespace is checked as lookahead and not
consumed; `\s*` here is horizontal whitespace so that the token stays on one
line). Returns the token and the remaining text. -/
def numMatch (l : List Char) : Option (List Char × List Char) :=
  if (l.takeWhile Char.isDigit).length = 0 then none
  else
    match (l.dropWhile Char.isDigit).dropWhile isSpaceTab with
    | d :: rest' =>
      if d == '.' || d == ')' then
        match rest' with
        | w :: _ => if isSpaceTab w then
            some (l.takeWhile Char.isDigit ++
              (l.dropWhile Char.isDigit).takeWhile isSpaceTab ++ [d], rest')
          else none
        | [] => none
      else none
    | [] => none

/-- Modelled from the spec: rule 3 emoji immediately followed by a bold run
opener. Returns the token and the remaining text. -/
def emojiMatch (l : List Char) : Option (List Char × List Char) :=
  match l with
  | c :: a :: b :: rest' =>
    if HEADING_EMOJIS.contains c && a == '*' && b == '*' then some ([c, a, b], rest')
    else none
  | _ => none

/-- Modelled from the spec: the combined heading-token recognizer of the
Heading Normalizer, rules tried in order. -/
def matchTok (l : List Char) : Option (List Char × List Char) :=
  match hashMatch l with
  | some r => some r
  | none =>
    match numMatch l with
    | some r => some r
    | none => emojiMatch l

def isStarter (c : Char) : Bool :=
  c == '#' || c.isDigit || HEADING_EMOJIS.contains c

example : matchTok "### Hello".data = some ("### ".data, "Hello".data) := by decide
example : matchTok "12. Care".data = some ("12.".data, " Care".data) := by decide
example : matchTok "🌿**Care**".data = some ("🌿**".data, "Care**".data) := by decide
example : matchTok "plain".data = none := by decide
example : matchTok "####### x".data = none := by decide

theorem hashMatch_eq {l tok rest : List Char} (h : hashMatch l = some (tok, rest)) :
    l = tok ++ rest ∧ 0 < tok.length := by
  unfold hashMatch at h
  by_cases hc : 2 ≤ (l.takeWhile (· == '#')).length ∧ (l.takeWhile (· == '#')).length ≤ 6
  · rw [if_pos hc] at h
    rcases hd : l.dropWhile (· == '#') with _ | ⟨c, rest'⟩ <;> rw [hd] at h
    · cases h
    · replace h : (if c = ' ' then
          some (l.takeWhile (· == '#') ++ [' '], rest') else none) = some (tok, rest) := h
      by_cases hsp : c = ' '
      · rw [if_pos hsp] at h
        cases h
        subst hsp
        refine ⟨?_, by simp⟩
        conv_lhs => rw [← List.takeWhile_append_dropWhile (p := (· == '#')) (l := l)]
        rw [hd]
        simp
      · rw [if_neg hsp] at h
        cases h
  · rw [if_neg hc] at h
    cases h

theorem numMatch_eq {l tok rest : List Char} (h : numMatch l = some (tok, rest)) :
    l = tok ++ rest ∧ 0 < tok.length := by
  unfold numMatch at h
  by_cases h0 : (l.takeWhile Char.isDigit).length = 0
  · rw [if_pos h0] at h; cases h
  · rw [if_neg h0] at h
    rcases hs : (l.dropWhile Char.isDigit).dropWhile isSpaceTab with _ | ⟨d, rest'⟩ <;>
      rw [hs] at h
    · cases h
    · replace h : (if d == '.' || d == ')' then
        (match rest' with
          | w :: _ => if isSpaceTab w then
              some (l.takeWhile Char.isDigit ++ (l.dropWhile Char.isDigit).takeWhile isSpaceTab
                ++ [d], rest')
            else none
          | [] => none) else none) = some (tok, rest) := h
      by_cases hd : (d == '.' || d == ')') = true
      · rw [if_pos hd] at h
        rcases rest' with _ | ⟨w, ws⟩
        · cases h
        · replace h : (if isSpaceTab w then
              some (l.takeWhile Char.isDigit ++ (l.dropWhile Char.isDigit).takeWhile isSpaceTab
                ++ [d], w :: ws)
            else none) = some (tok, rest) := h
          by_cases hw : isSpaceTab w = true
          · rw [if_pos hw] at h
            cases h
            refine ⟨?_, by simp⟩
            conv_lhs => rw [← List.takeWhile_append_dropWhile (p := Char.isDigit) (l := l)]
            conv_lhs =>
              rw [← List.takeWhile_append_dropWhile (p := isSpaceTab)
                (l := l.dropWhile Char.isDigit)]
            rw [hs]
            simp
          · rw [if_neg hw] at h; cases h
      · rw [if_neg hd] at h; cases h

theorem emojiMatch_eq {l tok rest : List Char} (h : emojiMatch l = some (tok, rest)) :
    l = tok ++ rest ∧ 0 < tok.length := by
  unfold emojiMatch at h
  split at h
  · next c a b rest' =>
    by_cases hc : (HEADING_EMOJIS.contains c && a == '*' && b == '*') = true
    · rw [if_pos hc] at h
      cases h
      exact ⟨rfl, by simp⟩
    · rw [if_neg hc] at h; cases h
  · cases h

theorem matchTok_eq {l tok rest : List Char} (h : matchTok l = some (tok, rest)) :
    l = tok ++ rest ∧ 0 < tok.length := by
  unfold matchTok at h
  rcases hh : hashMatch l with _ | r <;> rw [hh] at h
  · rcases hn : numMatch l with _ | r <;> rw [hn] at h
    · exact emojiMatch_eq h
    · cases h; exact numMatch_eq hn
  · cases h; exact hashMatch_eq hh

theorem matchTok_length_lt {l tok rest : List Char} (h : matchTok l = some (tok, rest)) :
    rest.length < l.length := by
  obtain ⟨heq, hpos⟩ := matchTok_eq h
  rw [heq, List.length_append]
  omega

/-- Modelled from the spec: the Heading Normalizer (§4.1). The repository
revision under analysis does not contain the structuring engine, so it is
modelled from the spec's rules: walking the text, a recognized heading token
occurring anywhere other than at the start of a line gets a line break inserted
immediately before it; recognized tokens are copied atomically and no other
content is altered. -/
def normAux (atStart : Bool) (l : List Char) : List Char :=
  match h : matchTok l with
  | some (tok, rest) => (if atStart then tok else '\n' :: tok) ++ normAux false rest
  | none =>
    match l with
    | [] => []
    | c :: cs => c :: normAux (c == '\n') cs
termination_by l.length
decreasing_by
  · exact matchTok_length_lt h
  · simp

/-- Modelled from the spec: `normalize(raw) -> string`, the Heading Normalizer
contract (§4.1); the start of the text counts as the start of a line. -/
def normalize (raw : String) : String := ⟨normAux true raw.data⟩


end ReportEngine

namespace ReportEngine

def headStarter : List Char → Bool
  | [] => false
  | c :: _ => isStarter c

/-- The normalizer only rewrites text by inserting line breaks, and only in
front of a character that can start a heading token. -/
inductive Ins : List Char → List Char → Prop
  | nil : Ins [] []
  | keep (c : Char) {cs y : List Char} : Ins cs y → Ins (c :: cs) (c :: y)
  | brk {cs y : List Char} (hs : headStarter y = true) : Ins cs y → Ins cs ('\n' :: y)

theorem ins_head {l y : List Char} (h : Ins l y) :
    y.head? = l.head? ∨ y.head? = some '\n' := by
  cases h with
  | nil => exact Or.inl rfl
  | keep c _ => exact Or.inl rfl
  | brk _ _ => exact Or.inr rfl

theorem ins_cons_inv {a : Char} {t z : List Char} (h : Ins (a :: t) z)
    (hh : z.head? = some a) (hne : a ≠ '\n') : ∃ t', z = a :: t' ∧ Ins t t' := by
  cases h with
  | keep c h' => exact ⟨_, rfl, h'⟩
  | brk hs h' =>
    exfalso
    apply hne
    cases hh
    rfl

theorem ins_nil_inv {z : List Char} (h : Ins [] z) :
    z = [] ∨ z.head? = some '\n' := by
  cases h with
  | nil => exact Or.inl rfl
  | brk hs h' => exact Or.inr rfl

theorem ins_append_left (t : List Char) {rs y : List Char} (h : Ins rs y) :
    Ins (t ++ rs) (t ++ y) := by
  induction t with
  | nil => exact h
  | cons c cs ih => exact Ins.keep c ih

theorem takeWhile_all {p : Char → Bool} (l : List Char) :
    ∀ c ∈ l.takeWhile p, p c = true := by
  induction l with
  | nil => intro c hc; cases hc
  | cons a as ih =>
    intro c hc
    by_cases ha : p a = true
    · rw [List.takeWhile_cons_of_pos ha] at hc
      rcases hc with _ | hc
      · exact ha
      · exact ih c (by assumption)
    · rw [List.takeWhile_cons_of_neg (by simpa using ha)] at hc
      cases hc

theorem hashMatch_shape {l tok rest : List Char} (h : hashMatch l = some (tok, rest)) :
    tok = l.takeWhile (· == '#') ++ [' '] ∧
    2 ≤ (l.takeWhile (· == '#')).length ∧ (l.takeWhile (· == '#')).length ≤ 6 ∧
    l.dropWhile (· == '#') = ' ' :: rest := by
  unfold hashMatch at h
  by_cases hc : 2 ≤ (l.takeWhile (· == '#')).length ∧ (l.takeWhile (· == '#')).length ≤ 6
  · rw [if_pos hc] at h
    rcases hd : l.dropWhile (· == '#') with _ | ⟨c, rest'⟩ <;> rw [hd] at h
    · cases h
    · replace h : (if c = ' ' then
          some (l.takeWhile (· == '#') ++ [' '], rest') else none) = some (tok, rest) := h
      by_cases hsp : c = ' '
      · rw [if_pos hsp] at h
        cases h
        subst hsp
        exact ⟨rfl, hc.1, hc.2, rfl⟩
      · rw [if_neg hsp] at h; cases h
  · rw [if_neg hc] at h; cases h

theorem numMatch_shape {l tok rest : List Char} (h : numMatch l = some (tok, rest)) :
    ∃ d, tok = l.takeWhile Char.isDigit ++ (l.dropWhile Char.isDigit).takeWhile isSpaceTab ++ [d] ∧
    1 ≤ (l.takeWhile Char.isDigit).length ∧
    (d == '.' || d == ')') = true ∧
    (l.dropWhile Char.isDigit).dropWhile isSpaceTab = d :: rest ∧
    ∃ w ws, rest = w :: ws ∧ isSpaceTab w = true := by
  unfold numMatch at h
  by_cases h0 : (l.takeWhile Char.isDigit).length = 0
  · rw [if_pos h0] at h; cases h
  · rw [if_neg h0] at h
    rcases hs : (l.dropWhile Char.isDigit).dropWhile isSpaceTab with _ | ⟨d, rest'⟩ <;>
      rw [hs] at h
    · cases h
    · replace h : (if d == '.' || d == ')' then
        (match rest' with
          | w :: _ => if isSpaceTab w then
              some (l.takeWhile Char.isDigit ++ (l.dropWhile Char.isDigit).takeWhile isSpaceTab
                ++ [d], rest')
            else none
          | [] => none) else none) = some (tok, rest) := h
      by_cases hd : (d == '.' || d == ')') = true
      · rw [if_pos hd] at h
        rcases rest' with _ | ⟨w, ws⟩
        · cases h
        · replace h : (if isSpaceTab w then
              some (l.takeWhile Char.isDigit ++ (l.dropWhile Char.isDigit).takeWhile isSpaceTab
                ++ [d], w :: ws)
            else none) = some (tok, rest) := h
          by_cases hw : isSpaceTab w = true
          · rw [if_pos hw] at h
            cases h
            exact ⟨d, rfl, by omega, hd, rfl, w, ws, rfl, hw⟩
          · rw [if_neg hw] at h; cases h
      · rw [if_neg hd] at h; cases h

theorem emojiMatch_shape {l tok rest : List Char} (h : emojiMatch l = some (tok, rest)) :
    ∃ c, tok = [c, '*', '*'] ∧ HEADING_EMOJIS.contains c = true ∧
      l = c :: '*' :: '*' :: rest := by
  unfold emojiMatch at h
  split at h
  · next c a b rest' =>
    by_cases hc : (HEADING_EMOJIS.contains c && a == '*' && b == '*') = true
    · rw [if_pos hc] at h
      cases h
      simp only [Bool.and_eq_true, beq_iff_eq] at hc
      obtain ⟨⟨h1, h2⟩, h3⟩ := hc
      subst h2; subst h3
      exact ⟨c, rfl, h1, rfl⟩
    · rw [if_neg hc] at h; cases h
  · cases h

theorem matchTok_cases {l tok rest : List Char} (h : matchTok l = some (tok, rest)) :
    hashMatch l = some (tok, rest) ∨
    (hashMatch l = none ∧ numMatch l = some (tok, rest)) ∨
    (hashMatch l = none ∧ numMatch l = none ∧ emojiMatch l = some (tok, rest)) := by
  unfold matchTok at h
  rcases hh : hashMatch l with _ | r <;> rw [hh] at h
  · rcases hn : numMatch l with _ | r <;> rw [hn] at h
    · exact Or.inr (Or.inr ⟨rfl, rfl, h⟩)
    · cases h; exact Or.inr (Or.inl ⟨rfl, rfl⟩)
  · cases h; exact Or.inl rfl

theorem matchTok_none_parts {l : List Char} (h : matchTok l = none) :
    hashMatch l = none ∧ numMatch l = none ∧ emojiMatch l = none := by
  unfold matchTok at h
  rcases hh : hashMatch l with _ | r <;> rw [hh] at h
  · rcases hn : numMatch l with _ | r <;> rw [hn] at h
    · exact ⟨rfl, rfl, h⟩
    · cases h
  · cases h

theorem matchTok_of_parts {l : List Char} (h1 : hashMatch l = none) (h2 : numMatch l = none)
    (h3 : emojiMatch l = none) : matchTok l = none := by
  unfold matchTok
  rw [h1, h2, h3]

theorem matchTok_head_starter {l tok rest : List Char} (h : matchTok l = some (tok, rest)) :
    headStarter tok = true := by
  rcases matchTok_cases h with hh | ⟨_, hn⟩ | ⟨_, _, he⟩
  · obtain ⟨htok, h2, _, _⟩ := hashMatch_shape hh
    rcases hds : l.takeWhile (· == '#') with _ | ⟨h0, hs0⟩
    · rw [hds] at h2; simp at h2
    · have hst : (h0 == '#') = true :=
        takeWhile_all l h0 (by rw [hds]; exact List.mem_cons_self _ _)
      rw [htok, hds]
      simp only [List.cons_append, headStarter, isStarter, hst, Bool.true_or]
  · obtain ⟨d, htok, h1, _, _, _⟩ := numMatch_shape hn
    rcases hds : l.takeWhile Char.isDigit with _ | ⟨d0, ds⟩
    · rw [hds] at h1; simp at h1
    · have hst : Char.isDigit d0 = true :=
        takeWhile_all l d0 (by rw [hds]; exact List.mem_cons_self _ _)
      rw [htok, hds]
      simp only [List.cons_append, headStarter, isStarter, hst, Bool.true_or, Bool.or_true]
  · obtain ⟨c, htok, hc, _⟩ := emojiMatch_shape he
    rw [htok]
    simp only [headStarter, isStarter, hc, Bool.or_true]

theorem hashMatch_none_of_head {c : Char} (cs : List Char) (hc : (c == '#') = false) :
    hashMatch (c :: cs) = none := by
  unfold hashMatch
  rw [List.takeWhile_cons_of_neg (by simp [hc])]
  simp

theorem numMatch_none_of_head {c : Char} (cs : List Char) (hc : c.isDigit = false) :
    numMatch (c :: cs) = none := by
  unfold numMatch
  rw [List.takeWhile_cons_of_neg (by simp [hc])]
  simp

theorem emojiMatch_none_of_head {c : Char} (cs : List Char)
    (hc : HEADING_EMOJIS.contains c = false) : emojiMatch (c :: cs) = none := by
  unfold emojiMatch
  rcases cs with _ | ⟨a, rest⟩
  · rfl
  · rcases rest with _ | ⟨b, rest2⟩
    · rfl
    · show (if (HEADING_EMOJIS.contains c && a == '*' && b == '*') = true
          then some ([c, a, b], rest2) else none) = none
      rw [if_neg (by intro hcon; simp only [Bool.and_eq_true] at hcon; rw [hc] at hcon; simp at hcon)]

theorem matchTok_none_of_not_starter {c : Char} (cs : List Char)
    (hc : isStarter c = false) : matchTok (c :: cs) = none := by
  simp only [isStarter, Bool.or_eq_false_iff] at hc
  exact matchTok_of_parts (hashMatch_none_of_head cs hc.1.1)
    (numMatch_none_of_head cs hc.1.2) (emojiMatch_none_of_head cs hc.2)

theorem normAux_eq_some {b : Bool} {l tok rest : List Char}
    (hm : matchTok l = some (tok, rest)) :
    normAux b l = (if b then tok else '\n' :: tok) ++ normAux false rest := by
  rw [normAux]
  split
  · next tok' rest' heq =>
    rw [hm] at heq
    cases heq
    rfl
  · next heq =>
    rw [hm] at heq
    cases heq

theorem normAux_nil (b : Bool) : normAux b [] = [] := by
  rw [normAux]
  split
  · next tok' rest' heq =>
    rw [show matchTok [] = none from rfl] at heq
    cases heq
  · next heq => rfl

theorem normAux_eq_none {b : Bool} {c : Char} {cs : List Char}
    (hm : matchTok (c :: cs) = none) :
    normAux b (c :: cs) = c :: normAux (c == '\n') cs := by
  rw [normAux]
  split
  · next tok' rest' heq =>
    rw [hm] at heq
    cases heq
  · next heq => rfl

theorem ins_norm (b : Bool) (l : List Char) : Ins l (normAux b l) := by
  induction b, l using normAux.induct with
  | case1 b l tok rest hm ih =>
    rw [normAux_eq_some hm]
    obtain ⟨heq, _⟩ := matchTok_eq hm
    rcases b with _ | _
    · simp only [Bool.false_eq_true, if_false]
      have hins : Ins (tok ++ rest) (tok ++ normAux false rest) := ins_append_left tok ih
      rw [← heq] at hins
      apply Ins.brk
      · have := matchTok_head_starter hm
        rcases tok with _ | ⟨t0, ts⟩
        · simp [headStarter] at this
        · simpa [headStarter] using this
      · exact hins
    · simp only [if_true]
      have hins : Ins (tok ++ rest) (tok ++ normAux false rest) := ins_append_left tok ih
      rw [← heq] at hins
      exact hins
  | case2 b hm =>
    rw [normAux_nil]
    exact Ins.nil
  | case3 b c cs hm hm2 ih =>
    rw [normAux_eq_none hm]
    exact Ins.keep c ih

theorem dropWhile_eq_self_of_take_nil {p : Char → Bool} {l : List Char}
    (h : (l.takeWhile p).length = 0) : l.dropWhile p = l := by
  cases l with
  | nil => rfl
  | cons a t =>
    by_cases ha : p a = true
    · rw [List.takeWhile_cons_of_pos ha] at h
      simp at h
    · exact List.dropWhile_cons_of_neg (by simp [ha])

theorem ins_runSplit (p : Char → Bool) (hp : p '\n' = false) {l y : List Char} (hi : Ins l y) :
    ((l.takeWhile p).length = (y.takeWhile p).length ∧ Ins (l.dropWhile p) (y.dropWhile p)) ∨
    ((y.takeWhile p).length < (l.takeWhile p).length ∧ (y.dropWhile p).head? = some '\n') := by
  induction hi with
  | nil => exact Or.inl ⟨rfl, Ins.nil⟩
  | keep c hi' ih =>
    by_cases hc : p c = true
    · rw [List.takeWhile_cons_of_pos hc, List.takeWhile_cons_of_pos hc,
        List.dropWhile_cons_of_pos hc, List.dropWhile_cons_of_pos hc]
      rcases ih with ⟨h1, h2⟩ | ⟨h1, h2⟩
      · exact Or.inl ⟨by simp [h1], h2⟩
      · exact Or.inr ⟨by simp only [List.length_cons]; omega, h2⟩
    · rw [List.takeWhile_cons_of_neg (by simp [hc]), List.takeWhile_cons_of_neg (by simp [hc]),
        List.dropWhile_cons_of_neg (by simp [hc]), List.dropWhile_cons_of_neg (by simp [hc])]
      exact Or.inl ⟨rfl, Ins.keep c hi'⟩
  | brk hs hi' ih =>
    rename_i cs0 y0
    rw [List.takeWhile_cons_of_neg (by simp [hp]), List.dropWhile_cons_of_neg (by simp [hp])]
    by_cases h0 : (List.takeWhile p cs0).length = 0
    · left
      refine ⟨by rw [h0]; rfl, ?_⟩
      rw [dropWhile_eq_self_of_take_nil h0]
      exact Ins.brk hs hi'
    · right
      exact ⟨by simp only [List.length_nil]; omega, rfl⟩

theorem hashMatch_none_iff (l : List Char) :
    hashMatch l = none ↔
      ¬(2 ≤ (l.takeWhile (· == '#')).length ∧ (l.takeWhile (· == '#')).length ≤ 6) ∨
      (l.dropWhile (· == '#')).head? ≠ some ' ' := by
  unfold hashMatch
  by_cases hc : 2 ≤ (l.takeWhile (· == '#')).length ∧ (l.takeWhile (· == '#')).length ≤ 6
  · rw [if_pos hc]
    rcases hd : l.dropWhile (· == '#') with _ | ⟨a, r⟩
    · simp [hc]
    · have : (match a :: r with
        | c :: rest' => if c = ' ' then some (l.takeWhile (· == '#') ++ [' '], rest') else none
        | [] => (none : Option (List Char × List Char))) =
        (if a = ' ' then some (l.takeWhile (· == '#') ++ [' '], r) else none) := rfl
      rw [this]
      by_cases ha : a = ' '
      · rw [if_pos ha]
        simp [hc, ha]
      · rw [if_neg ha]
        simp [hc, ha]
  · rw [if_neg hc]
    simp [hc]

theorem hashMatch_none_ins {c : Char} {l y : List Char}
    (hm : hashMatch (c :: l) = none) (hi : Ins l y) : hashMatch (c :: y) = none := by
  by_cases hc : (c == '#') = true
  · have hceq : c = '#' := by simpa using hc
    rw [hashMatch_none_iff] at hm ⊢
    rw [List.takeWhile_cons_of_pos (p := (· == '#')) hc,
      List.dropWhile_cons_of_pos (p := (· == '#')) hc] at hm
    rw [List.takeWhile_cons_of_pos (p := (· == '#')) hc,
      List.dropWhile_cons_of_pos (p := (· == '#')) hc]
    rcases ins_runSplit (· == '#') (by decide) hi with ⟨hk, hins⟩ | ⟨hk, hhd⟩
    · rcases hm with hcond | hhead
      · left
        simp only [List.length_cons] at hcond ⊢
        omega
      · right
        rcases ins_head hins with h | h <;> rw [h]
        · exact hhead
        · simp
    · right
      rw [hhd]
      simp
  · exact hashMatch_none_of_head y (by simpa using hc)

theorem numMatch_none_of_seps {l : List Char}
    (h : ∀ d rest', (l.dropWhile Char.isDigit).dropWhile isSpaceTab = d :: rest' →
      (d == '.' || d == ')') = false ∨ (∀ w ws, rest' = w :: ws → isSpaceTab w = false)) :
    numMatch l = none := by
  unfold numMatch
  by_cases h0 : (l.takeWhile Char.isDigit).length = 0
  · rw [if_pos h0]
  · rw [if_neg h0]
    rcases hs : (l.dropWhile Char.isDigit).dropWhile isSpaceTab with _ | ⟨d, rest'⟩
    · rfl
    · have hred : (match d :: rest' with
        | d :: rest' =>
          (if d == '.' || d == ')' then
            (match rest' with
              | w :: _ => if isSpaceTab w then
                  some (l.takeWhile Char.isDigit ++
                    (l.dropWhile Char.isDigit).takeWhile isSpaceTab ++ [d], rest')
                else none
              | [] => none)
          else none)
        | [] => (none : Option (List Char × List Char))) =
        (if d == '.' || d == ')' then
            (match rest' with
              | w :: _ => if isSpaceTab w then
                  some (l.takeWhile Char.isDigit ++
                    (l.dropWhile Char.isDigit).takeWhile isSpaceTab ++ [d], rest')
                else none
              | [] => none)
          else none) := rfl
      rw [hred]
      rcases h d rest' hs with hd | hw
      · rw [if_neg (by simp only [hd]; exact Bool.false_ne_true)]
      · by_cases hd2 : (d == '.' || d == ')') = true
        · rw [if_pos hd2]
          rcases rest' with _ | ⟨w, ws⟩
          · rfl
          · show (if isSpaceTab w then
                some (l.takeWhile Char.isDigit ++
                  (l.dropWhile Char.isDigit).takeWhile isSpaceTab ++ [d], w :: ws)
              else none) = none
            rw [if_neg (by simp [hw w ws rfl])]
        · rw [if_neg hd2]

theorem numMatch_none_extract {l : List Char} (hm : numMatch l = none)
    (h0 : (l.takeWhile Char.isDigit).length ≠ 0)
    {d : Char} {rest' : List Char}
    (hA : (l.dropWhile Char.isDigit).dropWhile isSpaceTab = d :: rest') :
    (d == '.' || d == ')') = false ∨ rest' = [] ∨
      ∃ w ws, rest' = w :: ws ∧ isSpaceTab w = false := by
  unfold numMatch at hm
  rw [if_neg h0, hA] at hm
  replace hm : (if d == '.' || d == ')' then
      (match rest' with
        | w :: _ => if isSpaceTab w then
            some (l.takeWhile Char.isDigit ++
              (l.dropWhile Char.isDigit).takeWhile isSpaceTab ++ [d], rest')
          else none
        | [] => none)
    else none) = none := hm
  by_cases hd : (d == '.' || d == ')') = true
  · rw [if_pos hd] at hm
    rcases rest' with _ | ⟨w, ws⟩
    · exact Or.inr (Or.inl rfl)
    · replace hm : (if isSpaceTab w then
          some (l.takeWhile Char.isDigit ++
            (l.dropWhile Char.isDigit).takeWhile isSpaceTab ++ [d], w :: ws)
        else none) = none := hm
      by_cases hw : isSpaceTab w = true
      · rw [if_pos hw] at hm
        cases hm
      · exact Or.inr (Or.inr ⟨w, ws, rfl, by simpa using hw⟩)
  · exact Or.inl (by simpa using hd)

theorem numMatch_none_ins {c : Char} {l y : List Char}
    (hm : numMatch (c :: l) = none) (hi : Ins l y) : numMatch (c :: y) = none := by
  by_cases hc : c.isDigit = true
  · have hDl : (c :: l).dropWhile Char.isDigit = l.dropWhile Char.isDigit :=
      List.dropWhile_cons_of_pos hc
    have hDy : (c :: y).dropWhile Char.isDigit = y.dropWhile Char.isDigit :=
      List.dropWhile_cons_of_pos hc
    have h0 : ((c :: l).takeWhile Char.isDigit).length ≠ 0 := by
      rw [List.takeWhile_cons_of_pos hc]
      simp
    apply numMatch_none_of_seps
    intro d rest' hA
    rw [hDy] at hA
    -- digit-run comparison between l and y
    rcases ins_runSplit Char.isDigit (by decide) hi with ⟨_, hins⟩ | ⟨_, hhd⟩
    · -- equal digit runs; compare the space runs
      rcases ins_runSplit isSpaceTab (by decide) hins with ⟨_, hins2⟩ | ⟨_, hhd2⟩
      · -- equal space runs: Ins (A l) (A y)
        rcases hAl : (l.dropWhile Char.isDigit).dropWhile isSpaceTab with _ | ⟨d0, r3⟩
        · rw [hAl] at hins2
          rcases ins_nil_inv hins2 with h | h
          · rw [hA] at h; cases h
          · rw [hA] at h
            cases h
            left
            rfl
        · rw [hAl] at hins2
          have hfail := numMatch_none_extract hm h0 (by rw [hDl, hAl])
          rcases ins_head hins2 with hh | hh <;> rw [hA] at hh
          · -- head (A y) = head (A l) = d0, so d = d0
            cases hh
            rcases hfail with hcond | hrest
            · exact Or.inl hcond
            · -- d is '.' or ')' (or cond failed); handle via inversion
              by_cases hcond2 : (d == '.' || d == ')') = true
              · have hdne : d ≠ '\n' := by
                  intro h
                  subst h
                  simp at hcond2
                obtain ⟨r3', heq, hins3⟩ := ins_cons_inv hins2 (by rw [hA]; rfl) hdne
                rw [hA] at heq
                cases heq
                right
                intro w ws hws
                subst hws
                rcases hrest with h | ⟨w0, ws0, hr3, hw0⟩
                · subst h
                  rcases ins_nil_inv hins3 with h | h
                  · cases h
                  · cases h
                    rfl
                · subst hr3
                  rcases ins_head hins3 with h | h <;> cases h
                  · exact hw0
                  · rfl
              · exact Or.inl (by simpa using hcond2)
          · -- head (A y) = '\n'
            cases hh
            left
            rfl
      · -- space run cut: head (A y) = '\n'
        rw [hA] at hhd2
        cases hhd2
        left
        rfl
    · -- digit run cut: head (dropWhile isDigit y) = '\n', so A y = dropWhile isDigit y
      have : (y.dropWhile Char.isDigit).dropWhile isSpaceTab = y.dropWhile Char.isDigit := by
        rcases hDW : y.dropWhile Char.isDigit with _ | ⟨a, r⟩
        · rfl
        · rw [hDW] at hhd
          cases hhd
          exact List.dropWhile_cons_of_neg (by decide)
      rw [this] at hA
      rw [hA] at hhd
      cases hhd
      left
      rfl
  · exact numMatch_none_of_head y (by simpa using hc)

theorem emojiMatch_none_ins {c : Char} {l y : List Char}
    (hm : emojiMatch (c :: l) = none) (hi : Ins l y) : emojiMatch (c :: y) = none := by
  by_cases hc : HEADING_EMOJIS.contains c = true
  · rcases y with _ | ⟨a, y2⟩
    · rfl
    · rcases y2 with _ | ⟨b, y3⟩
      · rfl
      · show (if (HEADING_EMOJIS.contains c && a == '*' && b == '*') = true
            then some ([c, a, b], y3) else none) = none
        rw [if_neg]
        intro hcon
        simp only [Bool.and_eq_true, beq_iff_eq] at hcon
        obtain ⟨⟨_, ha⟩, hb⟩ := hcon
        subst ha
        subst hb
        -- y = '*' :: '*' :: y3, so l must start with '*' '*' as well
        have h1 : l.head? = some '*' := by
          rcases ins_head hi with h | h
          · exact h.symm
          · exfalso
            simp at h
        rcases l with _ | ⟨a0, l2⟩
        · cases h1
        · cases h1
          obtain ⟨t', ht, hins2⟩ := ins_cons_inv hi rfl (by decide)
          cases ht
          have h2 : l2.head? = some '*' := by
            rcases ins_head hins2 with h | h
            · rw [← h]; rfl
            · cases h
          rcases l2 with _ | ⟨b0, l3⟩
          · cases h2
          · cases h2
            -- now emojiMatch (c :: '*' :: '*' :: l3) should have been some
            have : emojiMatch (c :: '*' :: '*' :: l3) =
                some ([c, '*', '*'], l3) := by
              show (if (HEADING_EMOJIS.contains c && '*' == '*' && '*' == '*') = true
                  then some ([c, '*', '*'], l3) else none) = some ([c, '*', '*'], l3)
              rw [if_pos (by rw [hc]; rfl)]
            rw [this] at hm
            cases hm
  · exact emojiMatch_none_of_head y (by simpa using hc)

theorem matchTok_none_ins {c : Char} {l y : List Char}
    (hm : matchTok (c :: l) = none) (hi : Ins l y) : matchTok (c :: y) = none := by
  obtain ⟨h1, h2, h3⟩ := matchTok_none_parts hm
  exact matchTok_of_parts (hashMatch_none_ins h1 hi) (numMatch_none_ins h2 hi)
    (emojiMatch_none_ins h3 hi)

theorem char_isDigit_iff (c : Char) : c.isDigit = true ↔ 48 ≤ c.toNat ∧ c.toNat ≤ 57 := by
  simp [Char.isDigit, UInt32.le_def, Char.toNat, UInt32.toNat, BitVec.le_def]

theorem takeWhile_append_head {p : Char → Bool} {run rest : List Char}
    (hall : ∀ a ∈ run, p a = true) (hrest : ∀ b ∈ rest.head?, p b = false) :
    (run ++ rest).takeWhile p = run ∧ (run ++ rest).dropWhile p = rest := by
  induction run with
  | nil =>
    simp only [List.nil_append]
    cases rest with
    | nil => exact ⟨rfl, rfl⟩
    | cons b t =>
      have hb := hrest b rfl
      exact ⟨List.takeWhile_cons_of_neg (by simp [hb]), List.dropWhile_cons_of_neg (by simp [hb])⟩
  | cons a t ih =>
    have ha := hall a (List.mem_cons_self _ _)
    have ih2 := ih (fun x hx => hall x (List.mem_cons_of_mem _ hx))
    simp only [List.cons_append]
    rw [List.takeWhile_cons_of_pos ha, List.dropWhile_cons_of_pos ha]
    exact ⟨by rw [ih2.1], ih2.2⟩

theorem spaceTab_not_digit {c : Char} (h : isSpaceTab c = true) : c.isDigit = false := by
  simp only [isSpaceTab, Bool.or_eq_true, beq_iff_eq] at h
  rcases h with h | h <;> subst h <;> decide

theorem dotParen_props {d : Char} (h : (d == '.' || d == ')') = true) :
    d.isDigit = false ∧ isSpaceTab d = false ∧ (d == '#') = false ∧ d ≠ '\n' := by
  simp only [Bool.or_eq_true, beq_iff_eq] at h
  rcases h with h | h <;> subst h <;> exact ⟨by decide, by decide, by decide, by decide⟩

theorem digit_ne_hash {c : Char} (h : c.isDigit = true) : (c == '#') = false := by
  rcases hc : (c == '#') with _ | _
  · rfl
  · simp only [beq_iff_eq] at hc
    subst hc
    cases h

theorem emoji_props {c : Char} (h : HEADING_EMOJIS.contains c = true) :
    (c == '#') = false ∧ c.isDigit = false := by
  have h2 : c ∈ HEADING_EMOJIS := by
    rw [List.contains_eq_any_beq] at h
    simp only [List.any_eq_true, beq_iff_eq] at h
    obtain ⟨x, hx, hcx⟩ := h
    subst hcx
    exact hx
  simp only [HEADING_EMOJIS, List.mem_cons, List.not_mem_nil, or_false] at h2
  rcases h2 with h2 | h2 | h2 | h2 | h2 | h2 | h2 | h2 <;> subst h2 <;>
    exact ⟨by decide, by decide⟩

theorem head_append_cases {sp : List Char} {d : Char} {Z : List Char} {b : Char}
    (hb : b ∈ (sp ++ d :: Z).head?) :
    (∃ s r, sp = s :: r ∧ b = s) ∨ (sp = [] ∧ b = d) := by
  cases sp with
  | nil =>
    simp only [List.nil_append, List.head?_cons, Option.mem_def, Option.some.injEq] at hb
    exact Or.inr ⟨rfl, hb.symm⟩
  | cons s r =>
    simp only [List.cons_append, List.head?_cons, Option.mem_def, Option.some.injEq] at hb
    exact Or.inl ⟨s, r, rfl, hb.symm⟩

theorem matchTok_self_delim {l tok rest Z : List Char} (h : matchTok l = some (tok, rest))
    (hZ : ∀ w, rest.head? = some w → isSpaceTab w = true → Z.head? = some w) :
    matchTok (tok ++ Z) = some (tok, Z) := by
  rcases matchTok_cases h with hh | ⟨hhn, hn⟩ | ⟨hhn, hnn, he⟩
  · -- hash token: tok = run ++ [' ']
    obtain ⟨htok, h2, h6, hd⟩ := hashMatch_shape hh
    have hall : ∀ a ∈ l.takeWhile (· == '#'), (a == '#') = true := takeWhile_all l
    have hstep : (l.takeWhile (· == '#') ++ ' ' :: Z).takeWhile (· == '#') =
        l.takeWhile (· == '#') ∧
        (l.takeWhile (· == '#') ++ ' ' :: Z).dropWhile (· == '#') = ' ' :: Z :=
      takeWhile_append_head hall (by
        intro b hb
        simp only [List.head?_cons, Option.mem_def, Option.some.injEq] at hb
        subst hb
        decide)
    have hhm : hashMatch (tok ++ Z) = some (tok, Z) := by
      rw [htok, List.append_assoc]
      show hashMatch (l.takeWhile (· == '#') ++ (' ' :: Z)) = _
      unfold hashMatch
      rw [hstep.1, hstep.2, if_pos ⟨h2, h6⟩]
      show (if (' ' : Char) = ' ' then
        some (l.takeWhile (· == '#') ++ [' '], Z) else none) = _
      rw [if_pos rfl]
    unfold matchTok
    rw [hhm]
  · -- numbered token
    obtain ⟨d, htok, h1, hdcond, hA, w, ws, hrest, hw⟩ := numMatch_shape hn
    obtain ⟨hdnd, hdnst, hdnh, _⟩ := dotParen_props hdcond
    have hZw : Z.head? = some w := hZ w (by rw [hrest]; rfl) hw
    have hallD : ∀ a ∈ l.takeWhile Char.isDigit, a.isDigit = true := takeWhile_all l
    have hallS : ∀ a ∈ (l.dropWhile Char.isDigit).takeWhile isSpaceTab, isSpaceTab a = true :=
      takeWhile_all _
    have hstep1 : (l.takeWhile Char.isDigit ++
        ((l.dropWhile Char.isDigit).takeWhile isSpaceTab ++ d :: Z)).takeWhile Char.isDigit =
        l.takeWhile Char.isDigit ∧
        (l.takeWhile Char.isDigit ++
        ((l.dropWhile Char.isDigit).takeWhile isSpaceTab ++ d :: Z)).dropWhile Char.isDigit =
        (l.dropWhile Char.isDigit).takeWhile isSpaceTab ++ d :: Z := by
      apply takeWhile_append_head hallD
      intro b hb
      rcases head_append_cases hb with ⟨s, r, hsp, rfl⟩ | ⟨_, rfl⟩
      · exact spaceTab_not_digit (hallS b (by rw [hsp]; exact List.mem_cons_self _ _))
      · exact hdnd
    have hstep2 : ((l.dropWhile Char.isDigit).takeWhile isSpaceTab ++ d :: Z).takeWhile
        isSpaceTab = (l.dropWhile Char.isDigit).takeWhile isSpaceTab ∧
        ((l.dropWhile Char.isDigit).takeWhile isSpaceTab ++ d :: Z).dropWhile isSpaceTab =
        d :: Z :=
      takeWhile_append_head hallS (by
        intro b hb
        simp only [List.head?_cons, Option.mem_def, Option.some.injEq] at hb
        subst hb
        exact hdnst)
    rcases Z with _ | ⟨z0, Z2⟩
    · exact absurd hZw (by simp)
    · have hz0 : z0 = w := by simpa using hZw
      rcases hdig : l.takeWhile Char.isDigit with _ | ⟨d0, ds⟩
      · rw [hdig] at h1; simp at h1
      · have hd0 : d0.isDigit = true :=
          hallD d0 (by rw [hdig]; exact List.mem_cons_self _ _)
        have hnm : numMatch (tok ++ (z0 :: Z2)) = some (tok, z0 :: Z2) := by
          rw [htok, List.append_assoc, List.append_assoc]
          show numMatch (l.takeWhile Char.isDigit ++
            ((l.dropWhile Char.isDigit).takeWhile isSpaceTab ++ (d :: (z0 :: Z2)))) = _
          unfold numMatch
          rw [hstep1.1, hstep1.2, hstep2.1, hstep2.2, if_neg (by omega)]
          show (if d == '.' || d == ')' then
              (if isSpaceTab z0 then
                some (l.takeWhile Char.isDigit ++
                  (l.dropWhile Char.isDigit).takeWhile isSpaceTab ++ [d], z0 :: Z2)
              else none)
            else none) = _
          rw [if_pos hdcond, if_pos (by rw [hz0]; exact hw)]
        have hhm2 : hashMatch (tok ++ (z0 :: Z2)) = none := by
          rw [htok, List.append_assoc, List.append_assoc, hdig]
          show hashMatch (d0 :: (ds ++ _)) = none
          exact hashMatch_none_of_head _ (digit_ne_hash hd0)
        unfold matchTok
        rw [hhm2, hnm]
  · -- emoji token
    obtain ⟨c, htok, hc, hl⟩ := emojiMatch_shape he
    obtain ⟨hch, hcd⟩ := emoji_props hc
    have hhm2 : hashMatch (tok ++ Z) = none := by
      rw [htok]
      exact hashMatch_none_of_head _ hch
    have hnm2 : numMatch (tok ++ Z) = none := by
      rw [htok]
      exact numMatch_none_of_head _ hcd
    have hem : emojiMatch (tok ++ Z) = some (tok, Z) := by
      rw [htok]
      show (if (HEADING_EMOJIS.contains c && '*' == '*' && '*' == '*') = true
          then some ([c, '*', '*'], Z) else none) = _
      rw [if_pos (by rw [hc]; rfl)]
    unfold matchTok
    rw [hhm2, hnm2, hem]

/-- A text is in normal form for the scan when every heading token it contains
occurs at the start of a line. -/
def goodF (atStart : Bool) (l : List Char) : Bool :=
  match h : matchTok l with
  | some (_, rest) => atStart && goodF false rest
  | none =>
    match l with
    | [] => true
    | c :: cs => goodF (c == '\n') cs
termination_by l.length
decreasing_by
  · exact matchTok_length_lt h
  · simp

theorem goodF_eq_some {b : Bool} {l tok rest : List Char}
    (hm : matchTok l = some (tok, rest)) : goodF b l = (b && goodF false rest) := by
  rw [goodF]
  split
  · next tok' rest' heq =>
    rw [hm] at heq
    cases heq
    rfl
  · next heq =>
    rw [hm] at heq
    cases heq

theorem goodF_nil (b : Bool) : goodF b [] = true := by
  rw [goodF]
  split
  · next tok' rest' heq =>
    rw [show matchTok [] = none from rfl] at heq
    cases heq
  · next heq => rfl

theorem goodF_eq_none {b : Bool} {c : Char} {cs : List Char}
    (hm : matchTok (c :: cs) = none) : goodF b (c :: cs) = goodF (c == '\n') cs := by
  rw [goodF]
  split
  · next tok' rest' heq =>
    rw [hm] at heq
    cases heq
  · next heq => rfl

theorem spaceTab_not_starter {w : Char} (h : isSpaceTab w = true) : isStarter w = false := by
  simp only [isSpaceTab, Bool.or_eq_true, beq_iff_eq] at h
  rcases h with h | h <;> subst h <;> rfl

theorem normAux_eq_self_of_good (b : Bool) (l : List Char) (hg : goodF b l = true) :
    normAux b l = l := by
  induction b, l using normAux.induct with
  | case1 b l tok rest hm ih =>
    rw [goodF_eq_some hm, Bool.and_eq_true] at hg
    rw [normAux_eq_some hm, if_pos hg.1, ih hg.2]
    exact ((matchTok_eq hm).1).symm
  | case2 b hm => exact normAux_nil b
  | case3 b c cs hm hm2 ih =>
    rw [goodF_eq_none hm] at hg
    rw [normAux_eq_none hm, ih hg]

theorem normAux_good (b : Bool) (l : List Char) : goodF b (normAux b l) = true := by
  induction b, l using normAux.induct with
  | case1 b l tok rest hm ih =>
    rw [normAux_eq_some hm]
    have hZ : ∀ w, rest.head? = some w → isSpaceTab w = true →
        (normAux false rest).head? = some w := by
      intro w hhw hsw
      rcases rest with _ | ⟨r0, rs⟩
      · cases hhw
      · have hr0 : r0 = w := by simpa using hhw
        subst hr0
        rw [normAux_eq_none (matchTok_none_of_not_starter rs (spaceTab_not_starter hsw))]
        rfl
    have hsd := matchTok_self_delim hm hZ
    rcases b with _ | _
    · simp only [Bool.false_eq_true, if_false, List.cons_append]
      rw [goodF_eq_none (matchTok_none_of_not_starter _ (by rfl))]
      rw [show (('\n' : Char) == '\n') = true from rfl]
      rw [goodF_eq_some hsd]
      simpa using ih
    · simp only [if_true]
      rw [goodF_eq_some hsd]
      simpa using ih
  | case2 b hm =>
    rw [normAux_nil]
    exact goodF_nil b
  | case3 b c cs hm hm2 ih =>
    rw [normAux_eq_none hm]
    rw [goodF_eq_none (matchTok_none_ins hm (ins_norm (c == '\n') cs))]
    exact ih

/-- C6 (Modelled from the spec): the Heading Normalizer is idempotent. -/
theorem normalize_idempotent (s : String) : normalize (normalize s) = normalize s :=
  congrArg String.mk (normAux_eq_self_of_good true _ (normAux_good true s.data))

/-- Case-insensitive string comparison, as the splitter's regex is
case-insensitive. -/
def eqCI (a b : String) : Bool := pyLower a == pyLower b

/-- Modelled from the spec: a trimmed fragment that restates a title bare or with a trailing colon
(§4.3 step 1 together with §7's entire-trimmed-content rule). -/
def bareForm (t : String) (tr : List Char) : Bool :=
  eqCI ⟨tr⟩ t || eqCI ⟨tr⟩ (t ++ ":")

/-- Modelled from the spec: the `## Title` heading-line form (whole trimmed line). -/
def hashForm (t : String) (tr : List Char) : Bool :=
  2 ≤ (tr.takeWhile (· == '#')).length && (tr.takeWhile (· == '#')).length ≤ 6 &&
    (match tr.dropWhile (· == '#') with
     | c :: r => c == ' ' && bareForm t (pyStripList r)
     | [] => false)

/-- Modelled from the spec: the `**Title:**` / `**Title**` heading-line form (whole trimmed line). -/
def boldForm (t : String) (tr : List Char) : Bool :=
  eqCI ⟨tr⟩ ("**" ++ t ++ "**") || eqCI ⟨tr⟩ ("**" ++ t ++ ":**")

/-- Modelled from the spec: the `N. Title` / `N) Title` heading-line form (whole trimmed line). -/
def numForm (t : String) (tr : List Char) : Bool :=
  1 ≤ (tr.takeWhile Char.isDigit).length &&
    (match tr.dropWhile Char.isDigit with
     | c :: r => (c == '.' || c == ')') && bareForm t (pyStripList r)
     | [] => false)

/-- Modelled from the spec: the Section Splitter's heading-line test (§4.3,
§7): a line is a heading for recognized title `t` when its entire trimmed
content is `t` in one of the recognized conventions, case-insensitively,
optionally followed by a colon and nothing else. -/
def isHeadingLineFor (t : String) (line : String) : Bool :=
  bareForm t (pyStripList line.data) || hashForm t (pyStripList line.data) ||
  boldForm t (pyStripList line.data) || numForm t (pyStripList line.data)

/-- The recognized title (if any) for which a line is a heading line; a line
starts a new section exactly when this is `some`. -/
def findTitle (titles : List String) (line : String) : Option String :=
  titles.find? (fun t => isHeadingLineFor t line)

/-- A line of plain prose: its trimmed content starts with an ordinary
character, not a markdown heading, bold, bullet or numbered decoration. -/
def isPlainProseLine (line : String) : Bool :=
  match (pyStripList line.data).head? with
  | none => false
  | some c => !(c == '#' || c == '*' || c == '-' || c.isDigit)

/-- A usable recognized title: nonempty, no surrounding whitespace, and no
colon of its own. -/
def wellFormedTitle (t : String) : Bool :=
  match t.data.head?, t.data.getLast? with
  | some a, some b => !pyIsSpace a && !pyIsSpace b && !t.data.contains ':'
  | _, _ => false

example : isHeadingLineFor "Toxicity" "Toxicity:" = true := by decide
example : isHeadingLineFor "Toxicity" "## toxicity" = true := by decide
example : isHeadingLineFor "Toxicity" "  3. Toxicity " = true := by decide
example : isHeadingLineFor "Toxicity" "**Toxicity:**" = true := by decide
example : isHeadingLineFor "Toxicity" "The toxicity of this plant is low." = false := by decide
example : isHeadingLineFor "Overview" "An Overview follows" = false := by decide

theorem string_beq_data {a b : List Char} (h : ((⟨a⟩ : String) == ⟨b⟩) = true) : a = b := by
  have : (⟨a⟩ : String) = ⟨b⟩ := by exact_mod_cast beq_iff_eq.mp h
  cases this
  rfl

theorem eqCI_data {a : List Char} {b : String} (h : eqCI ⟨a⟩ b = true) :
    a.map Char.toLower = b.data.map Char.toLower := by
  unfold eqCI pyLower at h
  exact string_beq_data h

theorem toLower_eq_of_not_lower {c x : Char} (hx : ¬(97 ≤ x.toNat ∧ x.toNat ≤ 122))
    (h : Char.toLower c = x) : c = x := by
  rw [char_toLower_eq] at h
  split at h
  · next hc =>
    exfalso
    apply hx
    rw [← h, char_toNat_ofNat (by left; omega)]
    omega
  · exact h

theorem listInfixOf_iff {n h : List Char} : listInfixOf n h = true ↔ n <:+: h := by
  induction h with
  | nil =>
    unfold listInfixOf
    rw [List.isEmpty_iff]
    constructor
    · intro he; subst he; exact List.infix_rfl
    · intro hi; exact List.eq_nil_of_infix_nil hi
  | cons a t ih =>
    unfold listInfixOf
    rw [Bool.or_eq_true, List.isPrefixOf_iff_prefix, ih, List.infix_cons_iff]

theorem infix_dropWhile {p : Char → Bool} {x l : List Char} (hx : x ≠ [])
    (hh : ∀ c ∈ x.head?, p c = false) (h : x <:+: l) : x <:+: l.dropWhile p := by
  induction l with
  | nil => exact h
  | cons a t ih =>
    by_cases hpa : p a = true
    · rw [List.dropWhile_cons_of_pos hpa]
      rcases List.infix_cons_iff.mp h with hpre | hinf
      · exfalso
        rcases x with _ | ⟨x0, xs⟩
        · exact hx rfl
        · obtain ⟨t2, ht2⟩ := hpre
          have hx0 : x0 = a := by
            have := congrArg List.head? ht2
            simpa using this
          subst hx0
          have := hh x0 rfl
          rw [this] at hpa
          cases hpa
      · exact ih hinf
    · rw [List.dropWhile_cons_of_neg (by simp [hpa])]
      exact h

theorem infix_pyStrip {x l : List Char} (hx : x ≠ [])
    (hh : ∀ c ∈ x.head?, pyIsSpace c = false)
    (hl : ∀ c ∈ x.reverse.head?, pyIsSpace c = false)
    (h : x <:+: l) : x <:+: pyStripList l := by
  unfold pyStripList
  have h1 : x <:+: l.dropWhile pyIsSpace := infix_dropWhile hx hh h
  have h2 : x.reverse <:+: (l.dropWhile pyIsSpace).reverse := by
    rw [ List.reverse_infix]
    exact h1
  have h3 : x.reverse <:+: ((l.dropWhile pyIsSpace).reverse).dropWhile pyIsSpace :=
    infix_dropWhile (by simpa using hx) hl h2
  have h4 := List.reverse_infix.mpr h3
  rwa [List.reverse_reverse] at h4

theorem map_toLower_length {a b : List Char} (h : a.map Char.toLower = b.map Char.toLower) :
    a.length = b.length := by
  have := congrArg List.length h
  simpa using this

/-- C7 (Modelled from the spec): heading precision of the Section Splitter: a
line of plain prose that contains a recognized title only as a proper
substring (the trimmed line is neither the title nor the title followed by a
colon) does not start a new section. -/
theorem heading_precision (t line : String) (titles : List String)
    (hwf : wellFormedTitle t = true)
    (hprose : isPlainProseLine line = true)
    (hsub : containsSub line t = true)
    (hne1 : pyStrip line ≠ t)
    (hne2 : pyStrip line ≠ t ++ ":") :
    isHeadingLineFor t line = false ∧
    ((∀ u ∈ titles, u = t) → findTitle titles line = none) := by
  -- unpack the well-formedness of the title
  unfold wellFormedTitle at hwf
  rcases hth : t.data.head? with _ | a <;> rw [hth] at hwf
  · cases hwf
  rcases htl : t.data.getLast? with _ | b <;> rw [htl] at hwf
  · cases hwf
  simp only [Bool.and_eq_true, Bool.not_eq_true'] at hwf
  obtain ⟨⟨hsa, hsb⟩, hcol⟩ := hwf
  have htne : t.data ≠ [] := by
    intro h0
    rw [h0] at hth
    cases hth
  -- unpack prose-ness
  unfold isPlainProseLine at hprose
  rcases hhd : (pyStripList line.data).head? with _ | c0 <;> rw [hhd] at hprose
  · cases hprose
  simp only [Bool.not_eq_true', Bool.or_eq_false_iff] at hprose
  obtain ⟨⟨⟨hc0h, hc0s⟩, hc0d⟩, hc0g⟩ := hprose
  -- the title occurs inside the trimmed line
  have hinf : t.data <:+: pyStripList line.data := by
    apply infix_pyStrip htne
    · intro c hc
      rw [hth] at hc
      cases hc
      exact hsa
    · intro c hc
      rw [List.head?_reverse, htl] at hc
      cases hc
      exact hsb
    · exact listInfixOf_iff.mp hsub
  have hmain : isHeadingLineFor t line = false := by
    unfold isHeadingLineFor
    have htw1 : (pyStripList line.data).takeWhile (· == '#') = [] := by
      rcases hTR : pyStripList line.data with _ | ⟨x, xs⟩
      · rfl
      · rw [hTR] at hhd
        cases hhd
        exact List.takeWhile_cons_of_neg (by simp_all)
    have htw2 : (pyStripList line.data).takeWhile Char.isDigit = [] := by
      rcases hTR : pyStripList line.data with _ | ⟨x, xs⟩
      · rfl
      · rw [hTR] at hhd
        cases hhd
        exact List.takeWhile_cons_of_neg (by simp [hc0g])
    have hhash : hashForm t (pyStripList line.data) = false := by
      unfold hashForm
      rw [htw1]
      rfl
    have hnum : numForm t (pyStripList line.data) = false := by
      unfold numForm
      rw [htw2]
      rfl
    have hcolmem : (':' : Char) ∉ t.data := by
      intro hmem
      have := List.elem_eq_true_of_mem hmem
      rw [show t.data.contains ':' = t.data.elem ':' from rfl] at hcol
      rw [this] at hcol
      cases hcol
    have hbold : boldForm t (pyStripList line.data) = false := by
      rcases hb : boldForm t (pyStripList line.data) with _ | _
      · rfl
      exfalso
      unfold boldForm at hb
      rw [Bool.or_eq_true] at hb
      rcases hTR : pyStripList line.data with _ | ⟨x, xs⟩
      · rw [hTR] at hhd; cases hhd
      rw [hTR] at hhd
      have hx : x = c0 := by simpa using hhd
      rw [hTR] at hb
      have hstar : Char.toLower x = '*' := by
        rcases hb with hb | hb
        · have hmap := eqCI_data hb
          have h1 := congrArg List.head? hmap
          rw [List.head?_map, List.head?_map] at h1
          have h2 : ("**" ++ t ++ "**").data.head? = some '*' := rfl
          rw [h2] at h1
          simpa using h1
        · have hmap := eqCI_data hb
          have h1 := congrArg List.head? hmap
          rw [List.head?_map, List.head?_map] at h1
          have h2 : ("**" ++ t ++ ":**").data.head? = some '*' := rfl
          rw [h2] at h1
          simpa using h1
      have hxstar : x = '*' := toLower_eq_of_not_lower (by decide) hstar
      rw [hxstar] at hx
      rw [← hx] at hc0s
      simp at hc0s
    have hbare : bareForm t (pyStripList line.data) = false := by
      rcases hb : bareForm t (pyStripList line.data) with _ | _
      · rfl
      exfalso
      unfold bareForm at hb
      rw [Bool.or_eq_true] at hb
      rcases hb with hb | hb
      · have hmap := eqCI_data hb
        have hlen : (pyStripList line.data).length = t.data.length := map_toLower_length hmap
        have heq : t.data = pyStripList line.data :=
          List.IsInfix.eq_of_length hinf (by omega)
        apply hne1
        show String.mk (pyStripList line.data) = t
        rw [← heq]
      · have hmap := eqCI_data hb
        have hlen : (pyStripList line.data).length = t.data.length + 1 := by
          have h2 := map_toLower_length hmap
          rw [show (t ++ ":").data = t.data ++ [':'] from rfl] at h2
          simpa using h2
        obtain ⟨u, v, huv⟩ := hinf
        have hlsum : u.length + v.length = 1 := by
          have h3 := congrArg List.length huv
          simp only [List.length_append] at h3
          omega
        rcases u with _ | ⟨ux, u2⟩
        · rcases v with _ | ⟨vx, v2⟩
          · simp at hlsum
          · have hv2 : v2 = [] := by
              simp only [List.length_nil, List.length_cons] at hlsum
              exact List.length_eq_zero.mp (by omega)
            subst hv2
            rw [List.nil_append] at huv
            rw [← huv] at hmap
            rw [show (t ++ ":").data = t.data ++ [':'] from rfl] at hmap
            rw [List.map_append, List.map_append] at hmap
            have h4 := List.append_cancel_left hmap
            have h5 : Char.toLower vx = ':' := by
              have := congrArg List.head? h4
              simpa using this
            have hvx : vx = ':' := toLower_eq_of_not_lower (by decide) h5
            subst hvx
            apply hne2
            show String.mk (pyStripList line.data) = t ++ ":"
            rw [← huv]
            rfl
        · have hu2 : u2 = [] := by
            simp only [List.length_cons] at hlsum
            exact List.length_eq_zero.mp (by omega)
          have hv : v = [] := by
            simp only [List.length_cons] at hlsum
            exact List.length_eq_zero.mp (by omega)
          subst hu2
          subst hv
          rw [List.append_nil] at huv
          rw [← huv] at hmap
          rw [show (t ++ ":").data = t.data ++ [':'] from rfl] at hmap
          have h2 := congrArg List.reverse hmap
          rw [← List.map_reverse, ← List.map_reverse] at h2
          rw [show ([ux] ++ t.data).reverse = t.data.reverse ++ [ux] by simp] at h2
          rw [show (t.data ++ [':']).reverse = ':' :: t.data.reverse by simp] at h2
          rcases hrev : t.data.reverse with _ | ⟨r0, rt⟩
          · have : t.data = [] := by simpa using congrArg List.reverse hrev
            exact htne this
          · rw [hrev] at h2
            simp only [List.cons_append, List.map_cons] at h2
            have h5 : Char.toLower r0 = Char.toLower ':' := by
              have := congrArg List.head? h2
              simpa using this
            rw [show Char.toLower ':' = ':' from rfl] at h5
            have hr0 : r0 = ':' := toLower_eq_of_not_lower (by decide) h5
            subst hr0
            apply hcolmem
            rw [← List.mem_reverse, hrev]
            exact List.mem_cons_self _ _
    rw [hbare, hhash, hnum, hbold]
    rfl
  refine ⟨hmain, ?_⟩
  intro hall
  rw [findTitle, List.find?_eq_none]
  intro u hu
  rw [hall u hu, hmain]
  exact Bool.false_ne_true

theorem heading_precision_witness :
    isHeadingLineFor "Overview" "An Overview follows" = false ∧
    ((∀ u ∈ ["Overview"], u = "Overview") →
      findTitle ["Overview"] "An Overview follows" = none) :=
  heading_precision "Overview" "An Overview follows" ["Overview"]
    (by decide) (by decide) (by decide) (by decide) (by decide)

/-- The style tags of the Document Model (§3). -/
inductive StyleTag
  | neutral
  | warning
  | success
  | info
  deriving Repr, DecidableEq

/-- The safety-related canonical title of this report schema. -/
def SAFETY_TITLE : String := "Toxicity"

/-- Modelled from the spec: the fixed mapping from canonical titles to style
tags (§4.5); the safety-related title is handled separately, and unrecognized
titles default to neutral. -/
def STYLE_MAP : List (String × StyleTag) :=
  [("Overview", .info), ("General Information", .info), ("Care Instructions", .info),
   ("Interesting Facts", .info)]

/-- Modelled from the spec: the negation patterns of the style-tag derivation
(§4.5). -/
def NEGATION_PATTERNS : List String := ["not toxic", "non-toxic", "non toxic"]

/-- Does the body match one of the negation patterns? -/
def matchesNegation (body : String) : Bool :=
  NEGATION_PATTERNS.any (fun p => containsSub (pyLower body) p)

/-- Modelled from the spec: style-tag derivation (§4.5): a pure function of
title and body; for the safety title the tag is success exactly on a negation
match and warning otherwise; other titles use the fixed mapping, defaulting to
neutral. -/
def styleTag (title body : String) : StyleTag :=
  if title == SAFETY_TITLE then
    (if matchesNegation body then .success else .warning)
  else (STYLE_MAP.lookup title).getD .neutral

/-- C3 (Modelled from the spec): for the safety title the derived style tag is
success iff the body matches a negation pattern and warning otherwise; titles
outside the fixed mapping derive neutral. -/
theorem style_tag_spec (title body : String) :
    (styleTag SAFETY_TITLE body = .success ↔ matchesNegation body = true) ∧
    (matchesNegation body = false → styleTag SAFETY_TITLE body = .warning) ∧
    (title ≠ SAFETY_TITLE → STYLE_MAP.lookup title = none →
      styleTag title body = .neutral) := by
  refine ⟨?_, ?_, ?_⟩
  · unfold styleTag
    rw [if_pos (by rfl)]
    rcases hm : matchesNegation body with _ | _
    · rw [if_neg (by simp [hm])]
      constructor
      · intro h; cases h
      · intro h; cases h
    · rw [if_pos rfl]
      simp
  · intro hm
    unfold styleTag
    rw [if_pos (by rfl), if_neg (by simp [hm])]
  · intro ht hl
    unfold styleTag
    rw [if_neg (by simpa using ht), hl]
    rfl

theorem style_tag_spec_witness :
    styleTag "Propagation" "cuttings" = .neutral :=
  (style_tag_spec "Propagation" "cuttings").2.2 (by decide) (by decide)

/-- Find the first closing bold run `**`, returning the text before it and the
text after it. -/
def splitBold : List Char → Option (List Char × List Char)
  | [] => none
  | a :: rest =>
    match rest with
    | b :: rest2 =>
      if a == '*' && b == '*' then some ([], rest2)
      else (splitBold rest).map (fun p => (a :: p.1, p.2))
    | [] => none

/-- Remove one trailing colon, as `KeyValue.key` never keeps it (§3). -/
def stripColon (l : List Char) : List Char :=
  match l.getLast? with
  | some c => if c == ':' then l.dropLast else l
  | none => l

def phraseChar (c : Char) : Bool := c.isAlphanum || c == ' ' || c == '-'

/-- Every word of the phrase starts with a non-lowercase character. -/
def wordsCap : List Char → Bool
  | [] => true
  | [_] => true
  | a :: b :: rest => (!(a == ' ') || !b.isLower) && wordsCap (b :: rest)

/-- Modelled from the spec: a short capitalized phrase (2–60 chars) as used by
Line Classifier rules 3 and 4 (§4.2): starts with an uppercase letter, made of
plain phrase characters, each word capitalized. -/
def isShortCapPhrase (l : List Char) : Bool :=
  match l with
  | [] => false
  | c :: _ =>
    c.isUpper && decide (2 ≤ l.length) && decide (l.length ≤ 60) &&
      l.all phraseChar && wordsCap l

/-- A trimmed line that is only a bold run, optionally ending in a colon. -/
def boldOnlyLabel (tr : List Char) : Option (List Char) :=
  match tr with
  | a :: b :: rest =>
    if a == '*' && b == '*' then
      match splitBold rest with
      | some (lab, after) =>
        if after.isEmpty || after == [':'] then some (stripColon lab) else none
      | none => none
    else none
  | _ => none

/-- A trimmed line that is only a hash-heading. -/
def hashOnlyLabel (tr : List Char) : Option (List Char) :=
  if 1 ≤ (tr.takeWhile (· == '#')).length ∧ (tr.takeWhile (· == '#')).length ≤ 6 then
    match tr.dropWhile (· == '#') with
    | c :: r =>
      if c == ' ' && !(pyStripList r).isEmpty then some (stripColon (pyStripList r)) else none
    | [] => none
  else none

/-- A trimmed line that is only a short capitalized phrase, optionally ending
in a colon. -/
def capPhraseLabel (tr : List Char) : Option (List Char) :=
  if isShortCapPhrase (stripColon tr) then some (stripColon tr) else none

/-- Modelled from the spec: Line Classifier rule 4's label-only test (§4.2): a
line that is only a bold run, only a hash-heading, or only a short capitalized
phrase, optionally ending in a colon; returns the label with markers and
trailing colon stripped. -/
def labelOnlyLine (line : String) : Option String :=
  match boldOnlyLabel (pyStripList line.data) with
  | some lab => some ⟨lab⟩
  | none =>
    match hashOnlyLabel (pyStripList line.data) with
    | some lab => some ⟨lab⟩
    | none =>
      match capPhraseLabel (pyStripList line.data) with
      | some lab => some ⟨lab⟩
      | none => none

/-- Modelled from the spec: Line Classifier rule 1 (§4.2): a line starting with
`- ` or `* `. -/
def isBulletLine (line : String) : Bool :=
  match pyStripList line.data with
  | a :: b :: _ => (a == '-' || a == '*') && b == ' '
  | _ => false

/-- Modelled from the spec: Line Classifier rule 2 (§4.2): `**Label**: value`
or `**Label:** value` with a non-empty value on the same line. -/
def boldKVLine (line : String) : Option (String × String) :=
  match pyStripList line.data with
  | a :: b :: rest =>
    if a == '*' && b == '*' then
      match splitBold rest with
      | some (lab, after) =>
        match after with
        | c :: rest2 =>
          if c == ':' then
            (if (pyStripList rest2).isEmpty then none
             else some (⟨stripColon lab⟩, ⟨pyStripList rest2⟩))
          else
            (if lab.getLast? == some ':' && !(pyStripList after).isEmpty then
              some (⟨stripColon lab⟩, ⟨pyStripList after⟩)
             else none)
        | [] => none
      | none => none
    else none
  | _ => none

/-- Split a line at the first colon. -/
def splitAtColon : List Char → Option (List Char × List Char)
  | [] => none
  | c :: rest =>
    if c == ':' then some ([], rest)
    else (splitAtColon rest).map (fun p => (c :: p.1, p.2))

/-- Modelled from the spec: Line Classifier rule 3 (§4.2): a short capitalized
phrase immediately followed by `: ` and more text, not already a bullet. -/
def plainKVLine (line : String) : Option (String × String) :=
  if isBulletLine line then none
  else
    match splitAtColon (pyStripList line.data) with
    | some (lab, rest) =>
      match rest with
      | c :: v =>
        if c == ' ' && isShortCapPhrase lab && !(pyStripList v).isEmpty then
          some (⟨lab⟩, ⟨pyStripList v⟩)
        else none
      | [] => none
    | none => none

/-- Modelled from the spec: the rule-4 lookahead test (§4.2): the next line is
itself a heading, bullet, or label. -/
def nextBlocksAdoption (next : String) : Bool :=
  isBulletLine next || (pyStripList next.data).head? == some '#' ||
  (labelOnlyLine next).isSome || (boldKVLine next).isSome || (plainKVLine next).isSome

inductive ClassifiedLine
  | bullet (text : String)
  | keyValue (key value : String) (consumedNext : Bool)
  | prose (text : String)
  deriving Repr, DecidableEq

/-- Modelled from the spec: the Line Classifier (§4.2), rules tried in
precedence order 1–5; `consumedNext` records that the rule-4 lookahead adopted
the next non-blank line as the value. -/
def classify (line : String) (nextNonblank : Option String) : ClassifiedLine :=
  if isBulletLine line then .bullet ⟨pyStripList ((pyStripList line.data).drop 2)⟩
  else
    match boldKVLine line with
    | some (k, v) => .keyValue k v false
    | none =>
      match plainKVLine line with
      | some (k, v) => .keyValue k v false
      | none =>
        match labelOnlyLine line with
        | some lab =>
          (match nextNonblank with
           | some nx =>
             if nextBlocksAdoption nx then .keyValue lab "" false
             else .keyValue lab ⟨pyStripList nx.data⟩ true
           | none => .keyValue lab "" false)
        | none => .prose ⟨pyStripList line.data⟩

example : classify "**Light:**" (some "Bright indirect") =
    .keyValue "Light" "Bright indirect" true := by decide
example : classify "**Light:** bright" none = .keyValue "Light" "bright" false := by decide
example : classify "Common Name: Rose" none = .keyValue "Common Name" "Rose" false := by decide
example : classify "- Water weekly" none = .bullet "Water weekly" := by decide
example : classify "Just some prose." none = .prose "Just some prose." := by decide
example : classify "## Origin" (some "## Next") = .keyValue "Origin" "" false := by decide
example : labelOnlyLine "Common Name" = some "Common Name" := by decide
example : labelOnlyLine "Bright indirect" = none := by decide

theorem splitAtColon_shape {l a1 b1 : List Char} (h : splitAtColon l = some (a1, b1)) :
    l = a1 ++ ':' :: b1 ∧ (':' : Char) ∉ a1 := by
  induction l generalizing a1 with
  | nil => cases h
  | cons c rest ih =>
    unfold splitAtColon at h
    by_cases hc : (c == ':') = true
    · rw [if_pos hc] at h
      cases h
      have : c = ':' := by simpa using hc
      subst this
      exact ⟨rfl, by simp⟩
    · rw [if_neg hc] at h
      rcases hs : splitAtColon rest with _ | ⟨a2, b2⟩ <;> rw [hs] at h
      · cases h
      · replace h : some (c :: a2, b2) = some (a1, b1) := h
        cases h
        obtain ⟨heq, hnm⟩ := ih hs
        refine ⟨by rw [heq]; rfl, ?_⟩
        intro hmem
        rcases List.mem_cons.mp hmem with hmem | hmem
        · rw [← hmem] at hc
          simp at hc
        · exact hnm hmem

theorem splitAtColon_none_of_not_mem {l : List Char} (h : (':' : Char) ∉ l) :
    splitAtColon l = none := by
  induction l with
  | nil => rfl
  | cons c rest ih =>
    unfold splitAtColon
    rw [if_neg (by simp; intro hc; exact h (hc ▸ List.mem_cons_self _ _))]
    rw [ih (fun hm => h (List.mem_cons_of_mem _ hm))]
    rfl

theorem splitAtColon_complete {a1 : List Char} (b1 : List Char) (h : (':' : Char) ∉ a1) :
    splitAtColon (a1 ++ ':' :: b1) = some (a1, b1) := by
  induction a1 with
  | nil =>
    show splitAtColon (':' :: b1) = _
    unfold splitAtColon
    rw [if_pos (by simp)]
  | cons c rest ih =>
    show splitAtColon (c :: (rest ++ ':' :: b1)) = _
    unfold splitAtColon
    rw [if_neg (by simp; intro hc; exact h (hc ▸ List.mem_cons_self _ _)),
      ih (fun hm => h (List.mem_cons_of_mem _ hm))]
    rfl

theorem takeWhile_pos_head {p : Char → Bool} {l : List Char}
    (h : 1 ≤ (l.takeWhile p).length) : ∃ x xs, l = x :: xs ∧ p x = true := by
  cases l with
  | nil => simp at h
  | cons x xs =>
    by_cases hx : p x = true
    · exact ⟨x, xs, rfl, hx⟩
    · rw [List.takeWhile_cons_of_neg (by simp [hx])] at h
      simp at h

theorem boldOnlyLabel_shape {tr lab : List Char} (h : boldOnlyLabel tr = some lab) :
    ∃ rest lab0 after, tr = '*' :: '*' :: rest ∧ splitBold rest = some (lab0, after) ∧
      (after = [] ∨ after = [':']) ∧ lab = stripColon lab0 := by
  unfold boldOnlyLabel at h
  rcases tr with _ | ⟨a, tr2⟩
  · cases h
  rcases tr2 with _ | ⟨b, rest⟩
  · cases h
  replace h : (if a == '*' && b == '*' then
      match splitBold rest with
      | some (lab0, after) =>
        if after.isEmpty || after == [':'] then some (stripColon lab0) else none
      | none => none
    else none) = some lab := h
  by_cases hab : (a == '*' && b == '*') = true
  · rw [if_pos hab] at h
    simp only [Bool.and_eq_true, beq_iff_eq] at hab
    obtain ⟨ha, hb⟩ := hab
    subst ha
    subst hb
    rcases hs : splitBold rest with _ | ⟨lab0, after⟩ <;> rw [hs] at h
    · cases h
    · replace h : (if after.isEmpty || after == [':'] then
          some (stripColon lab0) else none) = some lab := h
      by_cases hemp : (after.isEmpty || after == [':']) = true
      · rw [if_pos hemp] at h
        cases h
        refine ⟨rest, lab0, after, rfl, hs, ?_, rfl⟩
        simp only [Bool.or_eq_true, List.isEmpty_iff, beq_iff_eq] at hemp
        exact hemp
      · rw [if_neg hemp] at h
        cases h
  · rw [if_neg hab] at h
    cases h

theorem hashOnlyLabel_shape {tr lab : List Char} (h : hashOnlyLabel tr = some lab) :
    ∃ rest, tr = '#' :: rest := by
  unfold hashOnlyLabel at h
  by_cases hc : 1 ≤ (tr.takeWhile (· == '#')).length ∧ (tr.takeWhile (· == '#')).length ≤ 6
  · obtain ⟨x, xs, hxx, hpx⟩ := takeWhile_pos_head hc.1
    have : x = '#' := by simpa using hpx
    subst this
    exact ⟨xs, hxx⟩
  · rw [if_neg hc] at h
    cases h

theorem capPhraseLabel_shape {tr lab : List Char} (h : capPhraseLabel tr = some lab) :
    isShortCapPhrase (stripColon tr) = true ∧ lab = stripColon tr := by
  unfold capPhraseLabel at h
  by_cases hc : isShortCapPhrase (stripColon tr) = true
  · rw [if_pos hc] at h
    cases h
    exact ⟨hc, rfl⟩
  · rw [if_neg hc] at h
    cases h

theorem dropLast_head {l : List Char} (h : l.dropLast ≠ []) : l.dropLast.head? = l.head? := by
  rcases l with _ | ⟨a, l2⟩
  · rfl
  rcases l2 with _ | ⟨b, l3⟩
  · simp at h
  · rfl

theorem stripColon_head {tr : List Char} (h : stripColon tr ≠ []) :
    (stripColon tr).head? = tr.head? := by
  unfold stripColon at h ⊢
  rcases hg : tr.getLast? with _ | c
  · rfl
  · rw [hg] at h
    replace h : (if (c == ':') = true then tr.dropLast else tr) ≠ [] := h
    show (if (c == ':') = true then tr.dropLast else tr).head? = tr.head?
    by_cases hc : (c == ':') = true
    · rw [if_pos hc] at h ⊢
      exact dropLast_head h
    · rw [if_neg hc]

theorem phrase_not_colon {l : List Char} (h : l.all phraseChar = true) :
    (':' : Char) ∉ l := by
  intro hmem
  have h2 := List.all_eq_true.mp h ':' hmem
  revert h2
  decide

theorem isUpper_ne {c x : Char} (h : c.isUpper = true)
    (hx : ¬(65 ≤ x.toNat ∧ x.toNat ≤ 90)) : (c == x) = false := by
  rcases hb : (c == x) with _ | _
  · rfl
  · have : c = x := by simpa using hb
    subst this
    rw [char_isUpper_iff] at h
    omega

theorem isUpper_head_facts {c : Char} (h : c.isUpper = true) :
    (c == '#') = false ∧ (c == '*') = false ∧ (c == '-') = false ∧ (c == ':') = false :=
  ⟨isUpper_ne h (by decide), isUpper_ne h (by decide), isUpper_ne h (by decide),
   isUpper_ne h (by decide)⟩

theorem isShortCapPhrase_shape {l : List Char} (h : isShortCapPhrase l = true) :
    ∃ u l2, l = u :: l2 ∧ u.isUpper = true ∧ l.all phraseChar = true := by
  unfold isShortCapPhrase at h
  rcases l with _ | ⟨c, l2⟩
  · cases h
  · simp only [Bool.and_eq_true] at h
    exact ⟨c, l2, rfl, h.1.1.1.1, h.1.2⟩

theorem capPhrase_head_false {x : Char} (l2 : List Char) (hx : x.isUpper = false) :
    isShortCapPhrase (x :: l2) = false := by
  show (x.isUpper && decide (2 ≤ (x :: l2).length) && decide ((x :: l2).length ≤ 60) &&
    (x :: l2).all phraseChar && wordsCap (x :: l2)) = false
  rw [hx]
  rfl

theorem plainKV_none_aux {line : String} (hbul : isBulletLine line = false)
    (hcases : ∀ lab1 rest1, splitAtColon (pyStripList line.data) = some (lab1, rest1) →
      isShortCapPhrase lab1 = false ∨ rest1 = []) :
    plainKVLine line = none := by
  unfold plainKVLine
  rw [if_neg (by simp [hbul])]
  rcases hsc : splitAtColon (pyStripList line.data) with _ | ⟨lab1, rest1⟩
  · rfl
  · rcases rest1 with _ | ⟨c1, v⟩
    · rfl
    · rcases hcases lab1 (c1 :: v) hsc with hphr | himp
      · show (if (c1 == ' ' && isShortCapPhrase lab1 && !(pyStripList v).isEmpty) = true
            then some (String.mk lab1, String.mk (pyStripList v)) else none) = none
        rw [if_neg (by simp [hphr])]
      · cases himp

theorem labelOnly_disjoint {line lab : String} (h : labelOnlyLine line = some lab) :
    isBulletLine line = false ∧ boldKVLine line = none ∧ plainKVLine line = none := by
  unfold labelOnlyLine at h
  rcases hb : boldOnlyLabel (pyStripList line.data) with _ | lb <;> rw [hb] at h
  case some =>
    -- bold-only line
    obtain ⟨rest, lab0, after, htr, hsb, hafter, hlab⟩ := boldOnlyLabel_shape hb
    have hbul : isBulletLine line = false := by
      unfold isBulletLine
      rw [htr]
      rfl
    refine ⟨hbul, ?_, ?_⟩
    · unfold boldKVLine
      rw [htr]
      show (if ('*' == '*' && '*' == '*') = true then
          (match splitBold rest with
           | some (lab, after) =>
             (match after with
              | c :: rest2 =>
                if c == ':' then
                  (if (pyStripList rest2).isEmpty then none
                   else some (String.mk (stripColon lab), String.mk (pyStripList rest2)))
                else
                  (if lab.getLast? == some ':' && !(pyStripList after).isEmpty then
                    some (String.mk (stripColon lab), String.mk (pyStripList after))
                   else none)
              | [] => none)
           | none => none)
        else none) = none
      rw [if_pos (show (('*' : Char) == '*' && ('*' : Char) == '*') = true from rfl), hsb]
      rcases hafter with hafter | hafter
      · rw [hafter]
      · rw [hafter]
        rfl
    · apply plainKV_none_aux hbul
      intro lab1 rest1 hsc
      left
      obtain ⟨heq, hnm⟩ := splitAtColon_shape hsc
      rw [htr] at heq
      rcases lab1 with _ | ⟨x, lab2⟩
      · rw [List.nil_append] at heq
        cases heq
      · have hx : ('*' : Char) = x := by
          have h9 := congrArg List.head? heq
          simpa using h9
        subst hx
        exact capPhrase_head_false lab2 (by decide)
  case none =>
  rcases hh : hashOnlyLabel (pyStripList line.data) with _ | lh <;> rw [hh] at h
  case some =>
    obtain ⟨rest, htr⟩ := hashOnlyLabel_shape hh
    have hbul : isBulletLine line = false := by
      unfold isBulletLine
      rw [htr]
      rcases rest with _ | ⟨b, rest2⟩
      · rfl
      · rfl
    refine ⟨hbul, ?_, ?_⟩
    · unfold boldKVLine
      rw [htr]
      rcases rest with _ | ⟨b, rest2⟩
      · rfl
      · rfl
    · apply plainKV_none_aux hbul
      intro lab1 rest1 hsc
      left
      obtain ⟨heq, hnm⟩ := splitAtColon_shape hsc
      rw [htr] at heq
      rcases lab1 with _ | ⟨x, lab2⟩
      · rw [List.nil_append] at heq
        cases heq
      · have hx : ('#' : Char) = x := by
          have h9 := congrArg List.head? heq
          simpa using h9
        subst hx
        exact capPhrase_head_false lab2 (by decide)
  case none =>
  rcases hc : capPhraseLabel (pyStripList line.data) with _ | lc <;> rw [hc] at h
  case none => cases h
  case some =>
    obtain ⟨hphr, hlab⟩ := capPhraseLabel_shape hc
    obtain ⟨u, l2, hcore, hupper, hall⟩ := isShortCapPhrase_shape hphr
    have hcne : stripColon (pyStripList line.data) ≠ [] := by
      rw [hcore]
      simp
    have hhead : (pyStripList line.data).head? = some u := by
      rw [← stripColon_head hcne, hcore]
      rfl
    obtain ⟨hu1, hu2, hu3, hu4⟩ := isUpper_head_facts hupper
    rcases htr : pyStripList line.data with _ | ⟨a, tr2⟩
    · rw [htr] at hhead
      cases hhead
    have ha : a = u := by
      rw [htr] at hhead
      simpa using hhead
    subst ha
    have hbul : isBulletLine line = false := by
      unfold isBulletLine
      rw [htr]
      rcases tr2 with _ | ⟨b, tr3⟩
      · rfl
      · show ((a == '-' || a == '*') && b == ' ') = false
        rw [hu3, hu2]
        rfl
    refine ⟨hbul, ?_, ?_⟩
    · unfold boldKVLine
      rw [htr]
      rcases tr2 with _ | ⟨b, tr3⟩
      · rfl
      · show (if (a == '*' && b == '*') = true then _ else none) = none
        rw [if_neg (by simp [hu2])]
    · apply plainKV_none_aux hbul
      intro lab1 rest1 hsc
      -- two cases on whether the trimmed line ends in a colon
      rcases hgl : (pyStripList line.data).getLast? with _ | glc
      · -- empty line: contradicts htr
        rw [htr] at hgl
        simp at hgl
      by_cases hglc : (glc == ':') = true
      · -- line = core ++ [':'] with core the phrase
        obtain ⟨ys, hys⟩ := List.getLast?_eq_some_iff.mp hgl
        have hglceq : glc = ':' := by simpa using hglc
        subst hglceq
        have hstrip : stripColon (pyStripList line.data) = ys := by
          unfold stripColon
          rw [hgl]
          show (if ((':' : Char) == ':') = true then (pyStripList line.data).dropLast
            else pyStripList line.data) = ys
          rw [if_pos (show ((':' : Char) == ':') = true from rfl), hys]
          exact List.dropLast_concat
        have hnocol : (':' : Char) ∉ ys := by
          apply phrase_not_colon
          rw [← hstrip]
          exact hall
        have hsc2 : splitAtColon (pyStripList line.data) = some (ys, []) := by
          rw [hys]
          exact splitAtColon_complete [] hnocol
        rw [hsc] at hsc2
        cases hsc2
        exact Or.inr rfl
      · -- no trailing colon: the phrase is the whole line and has no colon
        have hstrip : stripColon (pyStripList line.data) = pyStripList line.data := by
          unfold stripColon
          rw [hgl]
          show (if (glc == ':') = true then (pyStripList line.data).dropLast
            else pyStripList line.data) = pyStripList line.data
          rw [if_neg hglc]
        have hnocol : (':' : Char) ∉ pyStripList line.data := by
          apply phrase_not_colon
          rw [← hstrip]
          exact hall
        rw [splitAtColon_none_of_not_mem hnocol] at hsc
        cases hsc

/-- C5 (Modelled from the spec): on a label-only line, when the next non-blank
line is not itself a heading, bullet, or label, the classifier adopts it as the
value and marks it consumed; otherwise (and when there is no next line) it
records a key/value with the empty string as value — never a missing value. -/
theorem label_only_lookahead (line nx : String) (lab : String)
    (h : labelOnlyLine line = some lab) :
    (nextBlocksAdoption nx = false →
      classify line (some nx) = .keyValue lab ⟨pyStripList nx.data⟩ true) ∧
    (nextBlocksAdoption nx = true →
      classify line (some nx) = .keyValue lab "" false) ∧
    classify line none = .keyValue lab "" false := by
  obtain ⟨hbul, hkv, hpl⟩ := labelOnly_disjoint h
  have hcls : ∀ nn : Option String, classify line nn =
      (match nn with
       | some nx2 => if nextBlocksAdoption nx2 then ClassifiedLine.keyValue lab "" false
                     else ClassifiedLine.keyValue lab ⟨pyStripList nx2.data⟩ true
       | none => ClassifiedLine.keyValue lab "" false) := by
    intro nn
    unfold classify
    rw [if_neg (by simp [hbul]), hkv, hpl, h]
  refine ⟨?_, ?_, ?_⟩
  · intro hn
    rw [hcls]
    show (if nextBlocksAdoption nx = true then ClassifiedLine.keyValue lab "" false
      else ClassifiedLine.keyValue lab ⟨pyStripList nx.data⟩ true) = _
    rw [if_neg (by simp [hn])]
  · intro hn
    rw [hcls]
    show (if nextBlocksAdoption nx = true then ClassifiedLine.keyValue lab "" false
      else ClassifiedLine.keyValue lab ⟨pyStripList nx.data⟩ true) = _
    rw [if_pos hn]
  · rw [hcls]

theorem label_only_lookahead_witness :
    classify "**Light:**" (some "Bright indirect") =
      .keyValue "Light" "Bright indirect" true :=
  (label_only_lookahead "**Light:**" "Bright indirect" "Light" (by decide)).1 (by decide)

def splitLinesAux (l : List Char) (cur : List Char) : List String :=
  match l with
  | [] => [⟨cur.reverse⟩]
  | c :: cs =>
    if c == '\n' then ⟨cur.reverse⟩ :: splitLinesAux cs [] else splitLinesAux cs (c :: cur)

/-- Split a string into its physical lines (Python `text.split("\n")`). -/
def splitLines (s : String) : List String := splitLinesAux s.data []

/-- Modelled from the spec: the Section Splitter's scan (§4.3): each heading
line starts a new section; preceding lines accumulate into the current
section's body, starting from an implicit Overview. -/
def splitAux (titles : List String) : List String → String → List String →
    List (String × List String)
  | [], curTitle, curBody => [(curTitle, curBody)]
  | ln :: rest, curTitle, curBody =>
    match findTitle titles ln with
    | some t => (curTitle, curBody) :: splitAux titles rest t []
    | none => splitAux titles rest curTitle (curBody ++ [ln])

def nonemptyBody (body : List String) : Bool :=
  body.any (fun l => !(pyStripList l.data).isEmpty)

/-- Modelled from the spec: `split(normalized_text, recognized_titles)`
(§4.3): the implicit leading Overview section is emitted only when its body is
non-empty after trimming. -/
def splitSections (titles : List String) (text : String) : List (String × List String) :=
  match splitAux titles (splitLines text) "Overview" [] with
  | [] => []
  | first :: rest => (if nonemptyBody first.2 then [first] else []) ++ rest

/-- Modelled from the spec: duplicate-heading stripping (§4.3 step 5): a body
whose first line restates the section's own title loses that line once. -/
def dupStrip (title : String) (body : List String) : List String :=
  match body with
  | [] => []
  | b0 :: rest => if bareForm title (pyStripList b0.data) then rest else b0 :: rest

def nextNonblank (lines : List String) : Option String :=
  lines.find? (fun l => !(pyStripList l.data).isEmpty)

def dropNextNonblank : List String → List String
  | [] => []
  | l :: rest => if (pyStripList l.data).isEmpty then l :: dropNextNonblank rest else rest

theorem dropNextNonblank_length (ls : List String) :
    (dropNextNonblank ls).length ≤ ls.length := by
  induction ls with
  | nil => exact Nat.le_refl _
  | cons l rest ih =>
    unfold dropNextNonblank
    by_cases hl : (pyStripList l.data).isEmpty = true
    · rw [if_pos hl]
      simpa using ih
    · rw [if_neg hl]
      simp

inductive ContentBlock
  | keyValue (key value : String)
  | paragraph (text : String)
  | bulletList (items : List String)
  deriving Repr, DecidableEq

def joinSpace (ls : List String) : String := String.intercalate " " ls

def joinLines (ls : List String) : String := String.intercalate "\n" ls

def flushPara (buf : List String) : List ContentBlock :=
  if buf.isEmpty then [] else [.paragraph (joinSpace buf)]

def flushBullets (buf : List String) : List ContentBlock :=
  if buf.isEmpty then [] else [.bulletList buf]

/-- Modelled from the spec: the Block Extractor walk (§4.4): blank lines
terminate an in-progress paragraph; bullets accumulate; key/value lines are
emitted immediately (consuming the adopted next line on rule-4 lookahead);
prose lines accumulate space-joined; buffers are flushed at the end. -/
def extractAux (lines : List String) (para bullets : List String) : List ContentBlock :=
  match lines with
  | [] => flushBullets bullets ++ flushPara para
  | ln :: rest =>
    if (pyStripList ln.data).isEmpty then
      flushBullets bullets ++ flushPara para ++ extractAux rest [] []
    else
      match classify ln (nextNonblank rest) with
      | .bullet b => flushPara para ++ extractAux rest [] (bullets ++ [b])
      | .keyValue k v consumed =>
        flushBullets bullets ++ flushPara para ++ .keyValue k v ::
          extractAux (if consumed then dropNextNonblank rest else rest) [] []
      | .prose t => flushBullets bullets ++ extractAux rest (para ++ [t]) []
termination_by lines.length
decreasing_by
  · simp
  · simp
  · rcases consumed with _ | _
    · simp
    · rw [dif_pos rfl]
      have := dropNextNonblank_length rest
      simp only [List.length_cons]
      omega
  · simp

/-- Modelled from the spec: `extract(body)` (§4.4). -/
def extract (body : List String) : List ContentBlock := extractAux body [] []

structure Section where
  title : String
  style_tag : StyleTag
  content : List ContentBlock
  deriving Repr, DecidableEq

structure Document where
  sections : List Section
  deriving Repr, DecidableEq

/-- Modelled from the spec: the engine contract
`structure(raw_text, recognized_titles) -> Document` (§6): normalize, split
into sections, strip duplicate headings, extract blocks and derive style
tags. Named `structureDoc` because `structure` is reserved in Lean. -/
def structureDoc (raw_text : String) (recognized_titles : List String) : Document :=
  { sections :=
      (splitSections recognized_titles (normalize raw_text)).map (fun p =>
        { title := p.1
          style_tag := styleTag p.1 (joinLines (dupStrip p.1 p.2))
          content := extract (dupStrip p.1 p.2) }) }

theorem data_ne_nil_of_ne_empty {t : String} (ht : t ≠ "") : t.data ≠ [] := by
  intro h
  apply ht
  cases t
  cases h
  rfl

theorem eqCI_nil_false {u : String} (hu : u.data ≠ []) : eqCI ⟨[]⟩ u = false := by
  rcases hq : eqCI ⟨[]⟩ u with _ | _
  · rfl
  · exfalso
    have h2 := eqCI_data hq
    apply hu
    have := congrArg List.length h2
    simp at this
    exact List.length_eq_zero.mp this.symm

theorem isHeadingLineFor_empty {t : String} (ht : t ≠ "") :
    isHeadingLineFor t "" = false := by
  unfold isHeadingLineFor
  have hdata : pyStripList ("" : String).data = [] := rfl
  rw [hdata]
  have h1 : bareForm t [] = false := by
    unfold bareForm
    rw [eqCI_nil_false (data_ne_nil_of_ne_empty ht),
      eqCI_nil_false (u := t ++ ":") (by
        show t.data ++ [':'] ≠ []
        simp)]
    rfl
  have h2 : boldForm t [] = false := by
    unfold boldForm
    rw [eqCI_nil_false (u := "**" ++ t ++ "**") (by
        show ('*' :: '*' :: t.data ++ ['*', '*']) ≠ []
        simp),
      eqCI_nil_false (u := "**" ++ t ++ ":**") (by
        show ('*' :: '*' :: t.data ++ [':', '*', '*']) ≠ []
        simp)]
    rfl
  rw [h1, h2]
  rfl

theorem normalize_empty : normalize "" = "" := by
  unfold normalize
  rw [show ("" : String).data = [] from rfl, normAux_nil]

/-- C1 (Modelled from the spec): `structure()` is a total function — it is
defined for every input string and set of recognized titles — and the empty
string input yields a Document with zero sections. -/
theorem structure_total_empty (recognized_titles : List String)
    (h : ∀ t ∈ recognized_titles, t ≠ "") :
    (structureDoc "" recognized_titles).sections = [] := by
  have hfind : findTitle recognized_titles "" = none := by
    rw [findTitle, List.find?_eq_none]
    intro t ht
    rw [isHeadingLineFor_empty (h t ht)]
    exact Bool.false_ne_true
  have h1 : splitAux recognized_titles [""] "Overview" [] = [("Overview", [""])] := by
    unfold splitAux
    rw [hfind]
    rfl
  have hss : splitSections recognized_titles "" = [] := by
    unfold splitSections
    rw [show splitLines "" = [""] from rfl, h1]
    rfl
  unfold structureDoc
  rw [normalize_empty, hss]
  rfl

theorem structure_total_empty_witness :
    (structureDoc "" ["General Information", "Care Instructions", "Toxicity", "Propagation",
      "Common Issues", "Interesting Facts"]).sections = [] :=
  structure_total_empty _ (by decide)

theorem extract_quick_facts_spec_witness :
    (("Safety", "Pet Safe ✅") : String × String).1 = "Safety" ∨
    (("Safety", "Pet Safe ✅") : String × String).1 = "Light" ∨
    (("Safety", "Pet Safe ✅") : String × String).1 = "Water" :=
  (extract_quick_facts_spec "non-toxic plant").1 ("Safety", "Pet Safe ✅") (by decide)

end ReportEngine
